import Mathlib

/-!
Verification of the deposit-allocation engine of `run.py`.

The Python source is shallowly embedded as follows.

* Money amounts and interest rates (Python floats) are modelled as exact
  rationals `ℚ`; all arithmetic in the source is elementary (`+`, `-`, `*`,
  `min`, `/`) and is translated literally.
* Python division `a / b` raises `ZeroDivisionError` when `b == 0`.  The only
  divisions in the source whose denominator is not the nonzero literal `12`
  are the two `total_interest / total_investment` expressions; those are
  modelled with an explicit zero test producing `PyErr.zeroDivisionError`,
  and fallible functions return `Except PyErr _`.
* Python dicts keep insertion order, so a dict is modelled as an association
  list; the bank-data dict maps bank names to bank records in input order.
  Indexing a missing key (`tiers[0]`, `x[i]`, `banks_data[name]`) is modelled
  as `PyErr.indexError` / `PyErr.keyError`.
* The external LP solver (`scipy.optimize.linprog`) is a parameter
  `solver : LPProblem → SolverOutcome`: it can return a solution vector,
  report failure (`result.success = False`), or raise.
* `list.sort(key=..., reverse=True)` is a stable descending sort; it is
  embedded as a stable descending insertion sort (the output of a stable
  sort is uniquely determined, so any stable descending sort is faithful).
  Each flattened tier record additionally carries the position `bankIdx` of
  its bank in the input list; this ghost field is determined by `bank_name`
  (Python dict keys are unique) and is never used as a sort key, it only
  names the originating account in theorem statements and proofs.
* The presentation-only field `other_requirements` of a bank record is never
  read by the optimization engine and is omitted from the embedding.
-/

set_option maxRecDepth 4000

/-- Python exceptions that the embedded code can raise. -/
inductive PyErr where
  | zeroDivisionError
  | indexError
  | keyError
deriving DecidableEq, Repr

/-- One interest tier, Python dict `{'rate': ..., 'amount': ...}` where
`amount` is the tier capacity. -/
structure Tier where
  rate : ℚ
  amount : ℚ
deriving DecidableEq, Repr

/-- One row of the per-tier breakdown produced by `calculate_bank_interest`
and `simple_allocation`. -/
structure BEntry where
  amount_in_tier : ℚ
  tier_rate : ℚ
  tier_interest : ℚ
  monthly_interest : ℚ
deriving DecidableEq, Repr

/-- Return value of `calculate_bank_interest`. -/
structure InterestResult where
  total_interest : ℚ
  breakdown : List BEntry
deriving DecidableEq, Repr

/-- The `for tier in bank_tiers` loop of `calculate_bank_interest`
(run.py lines 18-36): consume `min(remaining, tier.amount)` from each tier,
`break` as soon as the consumable amount is `≤ 0`. -/
def calcLoop : ℚ → List Tier → ℚ × List BEntry
  | _, [] => (0, [])
  | rem, t :: ts =>
    let a := min rem t.amount
    if a ≤ 0 then (0, [])
    else
      let ti := a * t.rate
      let p := calcLoop (rem - a) ts
      (ti + p.1, ⟨a, t.rate, ti, ti / 12⟩ :: p.2)

/-- `calculate_bank_interest` (run.py lines 6-41). -/
def calculate_bank_interest (deposit_amount : ℚ) (bank_tiers : List Tier) :
    InterestResult :=
  if deposit_amount ≤ 0 then ⟨0, []⟩
  else
    let p := calcLoop deposit_amount bank_tiers
    ⟨p.1, p.2⟩

/-- One record of the flattened tier list built by `simple_allocation`
(run.py lines 73-80): the owning bank's name, the tier rate and capacity.
`bankIdx` is the ghost position of the bank in the input list (see the
module docstring). -/
structure FlatTier where
  bank_name : String
  bankIdx : ℕ
  rate : ℚ
  amount : ℚ
deriving DecidableEq, Repr

/-- Tag the tiers of the bank at position `i` with its name and position. -/
def tagTiers (name : String) (i : ℕ) (tiers : List Tier) : List FlatTier :=
  tiers.map (fun t => ⟨name, i, t.rate, t.amount⟩)

/-- The flattening double loop of `simple_allocation`, with the running bank
position `i`. -/
def flattenFrom : ℕ → List (String × List Tier) → List FlatTier
  | _, [] => []
  | i, (n, ts) :: rest => tagTiers n i ts ++ flattenFrom (i + 1) rest

/-- `all_tiers` of `simple_allocation` (run.py lines 73-80). -/
def flattenBanks (banks : List (String × List Tier)) : List FlatTier :=
  flattenFrom 0 banks

/-- Stable descending insertion of one record into a rate-sorted list:
the new record goes in front of the first record whose rate is not greater.
Since `insertD` inserts the ORIGINALLY EARLIER record `x` into the already
sorted list of later records, ties keep their original order, exactly like
Python's stable `list.sort(key=rate, reverse=True)`. -/
def insertD (x : FlatTier) : List FlatTier → List FlatTier
  | [] => [x]
  | y :: ys => if y.rate ≤ x.rate then x :: y :: ys else y :: insertD x ys

/-- Stable descending sort by rate, `all_tiers.sort(key=..., reverse=True)`
(run.py line 82). -/
def sortDesc : List FlatTier → List FlatTier
  | [] => []
  | x :: xs => insertD x (sortDesc xs)

/-- Value of `allocations[bank_name]` in `simple_allocation` and of one
entry of the optimizer's result dict. -/
structure AllocEntry where
  deposit : ℚ
  annual_interest : ℚ
  monthly_interest : ℚ
  breakdown : List BEntry
deriving DecidableEq, Repr

/-- Result dict shape shared by `simple_allocation` (run.py lines 116-121)
and the success path of `optimize_deposits` (lines 166-171). -/
structure AllocResult where
  allocations : List (String × AllocEntry)
  total_annual_interest : ℚ
  total_monthly_interest : ℚ
  effective_rate : ℚ
deriving DecidableEq, Repr

/-- Lines 94-111 of run.py: create the `allocations[bank_name]` entry if
missing (Python dicts append new keys at the end), then accumulate the
consumed amount and interest into it and append a breakdown row. -/
def updateAlloc (allocs : List (String × AllocEntry)) (name : String)
    (amt interest rate : ℚ) : List (String × AllocEntry) :=
  let base :=
    if (allocs.find? (fun p => p.1 = name)).isSome then allocs
    else allocs ++ [(name, ⟨0, 0, 0, []⟩)]
  base.map (fun p =>
    if p.1 = name then
      (p.1, ⟨p.2.deposit + amt,
             p.2.annual_interest + interest,
             (p.2.annual_interest + interest) / 12,
             p.2.breakdown ++ [⟨amt, rate, interest, interest / 12⟩]⟩)
    else p)

/-- The `for tier in all_tiers` loop of `simple_allocation` (run.py lines
87-114), carrying the allocations dict and the running total; `break` when
the remaining investment is `≤ 0`. -/
def saWalk : List FlatTier → ℚ → List (String × AllocEntry) → ℚ →
    List (String × AllocEntry) × ℚ
  | [], _, allocs, total => (allocs, total)
  | t :: rest, rem, allocs, total =>
    if rem ≤ 0 then (allocs, total)
    else
      let amt := min rem t.amount
      let interest := amt * t.rate
      saWalk rest (rem - amt) (updateAlloc allocs t.bank_name amt interest t.rate)
        (total + interest)

/-- `simple_allocation` (run.py lines 71-121).  The final
`(total_interest / total_investment) * 100` raises `ZeroDivisionError`
when `total_investment == 0`. -/
def simple_allocation (banks_data : List (String × List Tier))
    (total_investment : ℚ) : Except PyErr AllocResult :=
  let sorted := sortDesc (flattenBanks banks_data)
  let p := saWalk sorted total_investment [] 0
  if total_investment = 0 then .error .zeroDivisionError
  else .ok ⟨p.1, p.2, p.2 / 12, p.2 / total_investment * 100⟩

/-- The LP data built by `create_optimization_problem` (run.py lines 63-69). -/
structure LPProblem where
  c : List ℚ
  A_eq : List (List ℚ)
  b_eq : List ℚ
  bounds : List (ℚ × ℚ)
  bank_names : List String
deriving DecidableEq, Repr

/-- Sum of the tier capacities of one bank, `max_deposit` (run.py line 54). -/
def sumAmounts (tiers : List Tier) : ℚ :=
  (tiers.map (fun t => t.amount)).sum

/-- The per-bank loop of `create_optimization_problem` (run.py lines 52-57):
for each bank, its name, objective coefficient `-tiers[0]['rate']` and bound
`(0, min(max_deposit, total_investment))`.  Indexing `tiers[0]` of a bank
with an empty tier list raises `IndexError`. -/
def lpRows (total_investment : ℚ) :
    List (String × List Tier) → Except PyErr (List (String × ℚ × (ℚ × ℚ)))
  | [] => .ok []
  | (name, tiers) :: rest =>
    match tiers with
    | [] => .error .indexError
    | t0 :: _ => do
      let r ← lpRows total_investment rest
      .ok ((name, -t0.rate, (0, min (sumAmounts tiers) total_investment)) :: r)

/-- `create_optimization_problem` (run.py lines 43-69). -/
def create_optimization_problem (banks_data : List (String × List Tier))
    (total_investment : ℚ) : Except PyErr LPProblem := do
  let rows ← lpRows total_investment banks_data
  .ok ⟨rows.map (fun r => r.2.1),
       [List.replicate banks_data.length (1 : ℚ)],
       [total_investment],
       rows.map (fun r => r.2.2),
       rows.map (fun r => r.1)⟩

/-- Outcome of one call of the external LP solver (`linprog`): an optimal
solution vector, a reported failure (`result.success = False`), or a raised
exception. -/
inductive SolverOutcome where
  | success (x : List ℚ)
  | failure
  | raised (e : PyErr)

/-- A bank record of the `banks_data` dict handed to `optimize_deposits`
(the presentation-only `other_requirements` list is omitted, see the module
docstring). -/
structure BankInfo where
  tiers : List Tier
  requires_salary : Bool
deriving DecidableEq, Repr

/-- `simplified_banks_data` (run.py lines 126-129). -/
def simplifiedOf (banks_data : List (String × BankInfo)) :
    List (String × List Tier) :=
  banks_data.map (fun p => (p.1, p.2.tiers))

/-- Python dict lookup `simplified_banks_data[bank_name]`. -/
def lookupTiers (name : String) (banks : List (String × List Tier)) :
    Option (List Tier) :=
  (banks.find? (fun p => p.1 = name)).map (fun p => p.2)

/-- The `for i, bank_name in enumerate(problem['bank_names'])` loop of
`optimize_deposits` (run.py lines 148-164): read `result.x[i]` (an index
out of range raises), keep banks whose deposit exceeds `0.01`, and recompute
their interest with `calculate_bank_interest`. -/
def assembleAllocs (x : List ℚ) (banks : List (String × List Tier)) :
    List String → ℕ → Except PyErr (List (String × AllocEntry))
  | [], _ => .ok []
  | name :: rest, i =>
    match x.get? i with
    | none => .error .indexError
    | some d =>
      if 1/100 < d then
        match lookupTiers name banks with
        | none => .error .keyError
        | some tiers => do
          let ic := calculate_bank_interest d tiers
          let r ← assembleAllocs x banks rest (i + 1)
          .ok ((name, ⟨d, ic.total_interest, ic.total_interest / 12,
                       ic.breakdown⟩) :: r)
      else assembleAllocs x banks rest (i + 1)

/-- `optimize_deposits` (run.py lines 123-174).  Note the exact extent of
the `try` block: `create_optimization_problem` is called BEFORE the `try`
(line 131), so its `IndexError` propagates; the `except` around the solve
and result assembly falls back to `simple_allocation`, whose own exception
(if any) then propagates. -/
def optimize_deposits (solver : LPProblem → SolverOutcome)
    (banks_data : List (String × BankInfo)) (total_investment : ℚ) :
    Except PyErr AllocResult :=
  let simplified := simplifiedOf banks_data
  match create_optimization_problem simplified total_investment with
  | .error e => .error e
  | .ok problem =>
    let tryBody : Except PyErr AllocResult :=
      match solver problem with
      | .raised e => .error e
      | .failure => simple_allocation simplified total_investment
      | .success x => do
        let entries ← assembleAllocs x simplified problem.bank_names 0
        let total := (entries.map (fun p => p.2.annual_interest)).sum
        if total_investment = 0 then .error .zeroDivisionError
        else .ok ⟨entries, total, total / 12, total / total_investment * 100⟩
    match tryBody with
    | .ok r => .ok r
    | .error _ => simple_allocation simplified total_investment

/-- The salary-bank list comprehension of `optimize_with_salary_constraint`
(run.py lines 233-236): keep, in order, the allocation keys whose bank
requires salary crediting; `banks_data[bank_name]` on a missing key raises. -/
def salaryFilter (banks_data : List (String × BankInfo)) :
    List String → Except PyErr (List String)
  | [] => .ok []
  | n :: rest =>
    match (banks_data.find? (fun p => p.1 = n)).map (fun p => p.2) with
    | none => .error .keyError
    | some info => do
      let r ← salaryFilter banks_data rest
      .ok (if info.requires_salary then n :: r else r)

/-- The modified bank dict of run.py lines 254-264: every salary-requiring
bank other than `chosen` keeps its tier capacities but has every tier rate
replaced by `0.0`. -/
def modifiedBanks (chosen : String) (banks_data : List (String × BankInfo)) :
    List (String × BankInfo) :=
  banks_data.map (fun p =>
    if p.2.requires_salary && ¬(p.1 = chosen) then
      (p.1, ⟨p.2.tiers.map (fun t => ⟨0, t.amount⟩), true⟩)
    else p)

/-- The `for chosen_bank in salary_requiring_banks` loop of run.py lines
252-273, carrying `best_result` (with the chosen bank recorded at the moment
of assignment) and `best_interest`; a candidate replaces the running best
only on a strict improvement. -/
def phase2 (solver : LPProblem → SolverOutcome)
    (banks_data : List (String × BankInfo)) (total_investment : ℚ) :
    List String → Option (AllocResult × String) → ℚ →
    Except PyErr (Option (AllocResult × String))
  | [], best, _ => .ok best
  | k :: rest, best, bestInterest => do
    let result ← optimize_deposits solver (modifiedBanks k banks_data)
      total_investment
    if bestInterest < result.total_annual_interest then
      phase2 solver banks_data total_investment rest (some (result, k))
        result.total_annual_interest
    else
      phase2 solver banks_data total_investment rest best bestInterest

/-- `optimize_with_salary_constraint` (run.py lines 226-275).  The returned
pair is the result dict together with its `chosen_salary_bank` entry; the
whole return value is `none` exactly when the Python function returns
`None`. -/
def optimize_with_salary_constraint (solver : LPProblem → SolverOutcome)
    (banks_data : List (String × BankInfo)) (total_investment : ℚ) :
    Except PyErr (Option (AllocResult × Option String)) := do
  let initial ← optimize_deposits solver banks_data total_investment
  let S ← salaryFilter banks_data (initial.allocations.map Prod.fst)
  match S with
  | [] => .ok (some (initial, none))
  | [s] => .ok (some (initial, some s))
  | _ => do
    let best ← phase2 solver banks_data total_investment S none 0
    .ok (best.map (fun p => (p.1, some p.2)))

/-- The allocation entry built on the success path of `optimize_deposits`
(run.py lines 151-163) for a solved deposit `d`: the interest figures are
recomputed by `calculate_bank_interest`, never taken from the LP objective. -/
def mkAllocEntry (d : ℚ) (tiers : List Tier) : AllocEntry :=
  let ic := calculate_bank_interest d tiers
  ⟨d, ic.total_interest, ic.total_interest / 12, ic.breakdown⟩

/-- A split of the total investment across the banks: one non-negative
deposit per bank, summing to the total. -/
def SplitFeasible (banks : List (String × List Tier)) (T : ℚ)
    (ds : List ℚ) : Prop :=
  ds.length = banks.length ∧ (∀ d ∈ ds, 0 ≤ d) ∧ ds.sum = T

/-- True total annual interest of a split, each bank's deposit evaluated by
the tier evaluator `calculate_bank_interest`. -/
def splitValue (banks : List (String × List Tier)) (ds : List ℚ) : ℚ :=
  (List.zipWith (fun p d => (calculate_bank_interest d p.2).total_interest)
    banks ds).sum

/-- Running maximum of the candidate totals of the phase-2 loop, seeded with
the initial `best_interest` (run.py line 250). -/
def bestRunning (resOf : String → AllocResult) : List String → ℚ → ℚ
  | [], b => b
  | k :: rest, b =>
    max (resOf k).total_annual_interest (bestRunning resOf rest b)

/-- Two salary-requiring banks used in the salary-search examples. -/
def wbanks : List (String × BankInfo) :=
  [("A", ⟨[⟨1/50, 60⟩], true⟩), ("B", ⟨[⟨1/100, 60⟩], true⟩)]

/-- A solver returning the optimum of each of the three LPs that the salary
search poses on `wbanks`: the unconstrained one and the two candidate
re-solves (recognised by their objective vectors). -/
def wsolver : LPProblem → SolverOutcome := fun p =>
  if p.c = [-(1/50), -(1/100)] then .success [60, 40]
  else if p.c = [-(1/50), 0] then .success [60, 40]
  else .success [40, 60]

/-- Result of the unconstrained run and of the candidate-A re-solve on
`wbanks`. -/
def wresA : AllocResult :=
  ⟨[("A", ⟨60, 6/5, 1/10, [⟨60, 1/50, 6/5, 1/10⟩]⟩),
    ("B", ⟨40, 0, 0, [⟨40, 0, 0, 0⟩]⟩)], 6/5, 1/10, 6/5⟩

/-- Result of the candidate-B re-solve on `wbanks`. -/
def wresB : AllocResult :=
  ⟨[("A", ⟨40, 0, 0, [⟨40, 0, 0, 0⟩]⟩),
    ("B", ⟨60, 3/5, 1/20, [⟨60, 1/100, 3/5, 1/20⟩]⟩)], 3/5, 1/20, 3/5⟩

/-- The candidate results of the phase-2 loop on `wbanks`. -/
def wresOf : String → AllocResult := fun k => if k = "A" then wresA else wresB

/-- Result of the unconstrained phase-1 run on `wbanks`. -/
def wres1 : AllocResult :=
  ⟨[("A", ⟨60, 6/5, 1/10, [⟨60, 1/50, 6/5, 1/10⟩]⟩),
    ("B", ⟨40, 2/5, 1/30, [⟨40, 1/100, 2/5, 1/30⟩]⟩)], 8/5, 2/15, 8/5⟩

/-- Two salary-requiring banks whose rates are all zero. -/
def zbanks : List (String × BankInfo) :=
  [("A", ⟨[⟨0, 70⟩], true⟩), ("B", ⟨[⟨0, 70⟩], true⟩)]

/-- A solver splitting the investment equally across the two banks of
`zbanks` (any feasible point is optimal there since every rate is zero). -/
def zsolver : LPProblem → SolverOutcome := fun _ => .success [70, 70]

/-- The result of every `optimize_deposits` run on `zbanks` (the candidate
modifications do not change the all-zero rates). -/
def zres : AllocResult :=
  ⟨[("A", ⟨70, 0, 0, [⟨70, 0, 0, 0⟩]⟩),
    ("B", ⟨70, 0, 0, [⟨70, 0, 0, 0⟩]⟩)], 0, 0, 0⟩

/-- Forget the tags of a flattened tier record. -/
def untag (ft : FlatTier) : Tier := ⟨ft.rate, ft.amount⟩

/-- The running total accumulated by the greedy walk of `simple_allocation`,
without the allocations bookkeeping: consume `min(remaining, capacity)` from
each record until the remaining investment is exhausted. -/
def foldTotal : List FlatTier → ℚ → ℚ
  | [], _ => 0
  | t :: rest, rem =>
    if rem ≤ 0 then 0
    else t.rate * min rem t.amount + foldTotal rest (rem - min rem t.amount)

/-- The per-record amounts consumed by the greedy walk, padded with zeros
after the budget is exhausted. -/
def walkAssign : List FlatTier → ℚ → List (FlatTier × ℚ)
  | [], _ => []
  | t :: rest, rem =>
    let a := if rem ≤ 0 then 0 else min rem t.amount
    (t, a) :: walkAssign rest (rem - a)

/-- Total interest of an assignment of amounts to flattened tier records. -/
def assignValue (la : List (FlatTier × ℚ)) : ℚ :=
  (la.map (fun p => p.1.rate * p.2)).sum

/-- Total amount of an assignment. -/
def amtSum (la : List (FlatTier × ℚ)) : ℚ :=
  (la.map (fun p => p.2)).sum

/-- The marginal fill of one account's tiers by a deposit `d`, as an
assignment: tiers after the first non-positive consumable amount get `0`. -/
def calcAssign : ℚ → List FlatTier → List (FlatTier × ℚ)
  | _, [] => []
  | d, t :: ts =>
    let a := min d t.amount
    if a ≤ 0 then (t :: ts).map (fun u => (u, 0))
    else (t, a) :: calcAssign (d - a) ts

/-- The assignment induced by a split: each account's deposit fills its own
tiers marginally. -/
def splitAssignFrom : ℕ → List (String × List Tier) → List ℚ →
    List (FlatTier × ℚ)
  | _, [], _ => []
  | _, _ :: _, [] => []
  | j, (n, ts) :: rest, d :: ds =>
    calcAssign d (tagTiers n j ts) ++ splitAssignFrom (j + 1) rest ds

/-- Tier list of the bank at position `i` (empty when out of range). -/
def tiersAt (banks : List (String × List Tier)) (i : ℕ) : List Tier :=
  ((banks.get? i).map Prod.snd).getD []

/-- Add an amount to the first entry of a list. -/
def addHead (e : ℚ) : List ℚ → List ℚ
  | [] => []
  | d :: ds => (d + e) :: ds

/-- The records of the greedy walk that belong to the bank at position `i`. -/
def walkParts (banks : List (String × List Tier)) (T : ℚ) (i : ℕ) :
    List (FlatTier × ℚ) :=
  (walkAssign (sortDesc (flattenBanks banks)) T).filter
    (fun p => p.1.bankIdx = i)

/-- The total amount the greedy walk deposits into the bank at position `i`. -/
def walkD (banks : List (String × List Tier)) (T : ℚ) (i : ℕ) : ℚ :=
  amtSum (walkParts banks T i)

/-- C9: a non-positive deposit yields total interest `0` and an empty
breakdown, with no error. -/
theorem calc_nonpos_deposit (d : ℚ) (tiers : List Tier) (hd : d ≤ 0) :
    calculate_bank_interest d tiers = ⟨0, []⟩ := by
  simp [calculate_bank_interest, hd]

theorem calc_nonpos_deposit_witness :
    (-3 : ℚ) ≤ 0 ∧
      calculate_bank_interest (-3) [⟨1/20, 100⟩] = ⟨0, []⟩ :=
  ⟨by norm_num, calc_nonpos_deposit (-3) [⟨1/20, 100⟩] (by norm_num)⟩

theorem calcLoop_zero_cap (rem : ℚ) (r : ℚ) (pre post : List Tier) :
    calcLoop rem (pre ++ ⟨r, 0⟩ :: post) = calcLoop rem pre := by
  induction pre generalizing rem with
  | nil =>
    simp [calcLoop, min_le_iff]
  | cons t ts ih =>
    simp only [List.cons_append, calcLoop]
    split
    · rfl
    · simp [ih]

/-- C7: a zero-capacity tier is a hard stop: for a positive deposit, every
tier after the first zero-capacity tier contributes nothing, so the whole
result equals the result on the tiers before it. -/
theorem calc_zero_cap_short_circuit (d : ℚ) (r : ℚ) (pre post : List Tier)
    (hd : 0 < d) :
    calculate_bank_interest d (pre ++ ⟨r, 0⟩ :: post) =
      calculate_bank_interest d pre := by
  simp [calculate_bank_interest, calcLoop_zero_cap]

theorem calc_zero_cap_short_circuit_witness :
    (0 : ℚ) < 500 ∧
      calculate_bank_interest 500 [⟨1/100, 100⟩, ⟨0, 0⟩, ⟨1/20, 1000⟩] =
        calculate_bank_interest 500 [⟨1/100, 100⟩] ∧
      (calculate_bank_interest 500 [⟨1/100, 100⟩, ⟨0, 0⟩, ⟨1/20, 1000⟩]).total_interest
        = 100 * (1/100) :=
  ⟨by norm_num,
   calc_zero_cap_short_circuit 500 0 [⟨1/100, 100⟩] [⟨1/20, 1000⟩] (by norm_num),
   by norm_num [calculate_bank_interest, calcLoop]⟩

theorem calcLoop_nonneg (rem : ℚ) (tiers : List Tier)
    (hr : ∀ t ∈ tiers, 0 ≤ t.rate) :
    0 ≤ (calcLoop rem tiers).1 := by
  induction tiers generalizing rem with
  | nil => simp [calcLoop]
  | cons t ts ih =>
    simp only [calcLoop]
    split
    · simp
    · rename_i h
      push_neg at h
      have h1 : 0 ≤ min rem t.amount * t.rate :=
        mul_nonneg h.le (hr t (by simp))
      have h2 := ih (rem - min rem t.amount) (fun u hu => hr u (by simp [hu]))
      simpa using add_nonneg h1 h2

theorem calcLoop_mono (tiers : List Tier) (d1 d2 : ℚ)
    (hr : ∀ t ∈ tiers, 0 ≤ t.rate) (h12 : d1 ≤ d2) :
    (calcLoop d1 tiers).1 ≤ (calcLoop d2 tiers).1 := by
  induction tiers generalizing d1 d2 with
  | nil => simp [calcLoop]
  | cons t ts ih =>
    simp only [calcLoop]
    by_cases h1 : min d1 t.amount ≤ 0
    · rw [if_pos h1]
      split
      · exact le_refl 0
      · rename_i h2
        push_neg at h2
        have ha : 0 ≤ min d2 t.amount * t.rate :=
          mul_nonneg h2.le (hr t (by simp))
        have hb := calcLoop_nonneg (d2 - min d2 t.amount) ts
          (fun u hu => hr u (by simp [hu]))
        simpa using add_nonneg ha hb
    · push_neg at h1
      have hmin : min d1 t.amount ≤ min d2 t.amount :=
        min_le_min h12 le_rfl
      have h2 : ¬ min d2 t.amount ≤ 0 := by linarith
      rw [if_neg (by exact not_le.mpr h1), if_neg h2]
      have ha : min d1 t.amount * t.rate ≤ min d2 t.amount * t.rate :=
        mul_le_mul_of_nonneg_right hmin (hr t (by simp))
      have hrem : d1 - min d1 t.amount ≤ d2 - min d2 t.amount := by
        rcases le_total d1 t.amount with h | h
        · rw [min_eq_left h]
          have : d2 - min d2 t.amount ≥ 0 := by
            rcases le_total d2 t.amount with h4 | h4
            · simp [min_eq_left h4]
            · simp [min_eq_right h4]; linarith
          linarith
        · rw [min_eq_right h]
          rcases le_total d2 t.amount with h4 | h4
          · rw [min_eq_left h4]; linarith
          · rw [min_eq_right h4]; linarith
      have hb := ih (d1 - min d1 t.amount) (d2 - min d2 t.amount)
        (fun u hu => hr u (by simp [hu])) hrem
      simpa using add_le_add ha hb

/-- C8: for a fixed tier list with non-negative rates, the total interest of
`calculate_bank_interest` is monotone non-decreasing in the deposit. -/
theorem calc_monotone (tiers : List Tier) (d1 d2 : ℚ)
    (hr : ∀ t ∈ tiers, 0 ≤ t.rate) (h12 : d1 ≤ d2) :
    (calculate_bank_interest d1 tiers).total_interest ≤
      (calculate_bank_interest d2 tiers).total_interest := by
  unfold calculate_bank_interest
  by_cases h1 : d1 ≤ 0
  · rw [if_pos h1]
    split
    · exact le_refl 0
    · simpa using calcLoop_nonneg d2 tiers hr
  · have h2 : ¬ d2 ≤ 0 := by push_neg at h1 ⊢; linarith
    rw [if_neg h1, if_neg h2]
    simpa using calcLoop_mono tiers d1 d2 hr h12

theorem calc_monotone_witness :
    (∀ t ∈ [Tier.mk (1/20) 100, Tier.mk (1/100) 200], 0 ≤ t.rate) ∧
      (50 : ℚ) ≤ 150 ∧
      (calculate_bank_interest 50 [⟨1/20, 100⟩, ⟨1/100, 200⟩]).total_interest ≤
        (calculate_bank_interest 150 [⟨1/20, 100⟩, ⟨1/100, 200⟩]).total_interest :=
  ⟨by norm_num, by norm_num,
   calc_monotone [⟨1/20, 100⟩, ⟨1/100, 200⟩] 50 150 (by norm_num) (by norm_num)⟩

theorem lpRows_ok (banks : List (String × List Tier)) (T : ℚ)
    (h : ∀ p ∈ banks, p.2 ≠ []) :
    lpRows T banks =
      .ok (banks.map (fun p =>
        (p.1, -(p.2.headD ⟨0, 0⟩).rate, ((0 : ℚ), min (sumAmounts p.2) T)))) := by
  induction banks with
  | nil => simp [lpRows]
  | cons b rest ih =>
    obtain ⟨n, ts⟩ := b
    cases ts with
    | nil => exact absurd rfl (h (n, []) (by simp))
    | cons t0 ts2 =>
      have ih2 := ih (fun p hp => h p (by simp [hp]))
      simp [lpRows, ih2, Bind.bind, Except.bind]

/-- C5: when every bank has at least one tier, the LP built by
`create_optimization_problem` has, per bank, objective coefficient equal to
the negated first-tier rate, variable bounds
`[0, min(sum of tier capacities, totalInvestment)]`, and the single equality
constraint row `(1, ..., 1) · x = totalInvestment`. -/
theorem lp_formulation (banks : List (String × List Tier)) (T : ℚ)
    (h : ∀ p ∈ banks, p.2 ≠ []) :
    ∃ prob, create_optimization_problem banks T = .ok prob ∧
      prob.c = banks.map (fun p => -(p.2.headD ⟨0, 0⟩).rate) ∧
      prob.bounds = banks.map (fun p => ((0 : ℚ), min (sumAmounts p.2) T)) ∧
      prob.bank_names = banks.map Prod.fst ∧
      prob.A_eq = [List.replicate banks.length (1 : ℚ)] ∧
      prob.b_eq = [T] := by
  refine ⟨⟨banks.map (fun p => -(p.2.headD ⟨0, 0⟩).rate),
      [List.replicate banks.length (1 : ℚ)], [T],
      banks.map (fun p => ((0 : ℚ), min (sumAmounts p.2) T)),
      banks.map Prod.fst⟩, ?_, rfl, rfl, rfl, rfl, rfl⟩
  simp [create_optimization_problem, lpRows_ok banks T h, Bind.bind,
    Except.bind, Function.comp]

theorem lp_formulation_witness :
    (∀ p ∈ [("A", [Tier.mk (1/20) 100]), ("B", [Tier.mk (1/100) 300, Tier.mk 0 50])],
        p.2 ≠ []) ∧
    ∃ prob,
      create_optimization_problem
          [("A", [⟨1/20, 100⟩]), ("B", [⟨1/100, 300⟩, ⟨0, 50⟩])] 200 = .ok prob ∧
      prob.c = [-(1/20), -(1/100)] ∧
      prob.bounds = [((0 : ℚ), 100), ((0 : ℚ), 200)] ∧
      prob.bank_names = ["A", "B"] ∧
      prob.A_eq = [[1, 1]] ∧ prob.b_eq = [200] := by
  have h : ∀ p ∈ [("A", [Tier.mk (1/20) 100]), ("B", [Tier.mk (1/100) 300, Tier.mk 0 50])],
      p.2 ≠ ([] : List Tier) := by simp
  refine ⟨h, ?_⟩
  obtain ⟨prob, h1, h2, h3, h4, h5, h6⟩ :=
    lp_formulation [("A", [⟨1/20, 100⟩]), ("B", [⟨1/100, 300⟩, ⟨0, 50⟩])] 200 h
  refine ⟨prob, h1, ?_, ?_, h4, by simpa using h5, h6⟩
  · rw [h2]; norm_num
  · rw [h3]; norm_num [sumAmounts]

/-- C1 (code bug): with `totalInvestment = 0` both `simple_allocation` and
`optimize_deposits` raise `ZeroDivisionError` instead of returning a
well-formed zero result: the effective-rate computation divides by the total
investment, and the `except` fallback of `optimize_deposits` calls
`simple_allocation`, which raises the same error.  The solver here reports
success with the only feasible vector `[0]`. -/
theorem zero_investment_raises_zero_division :
    simple_allocation [("A", [⟨1/20, 1000⟩])] 0 = .error .zeroDivisionError ∧
    optimize_deposits (fun _ => .success [0])
        [("A", ⟨[⟨1/20, 1000⟩], false⟩)] 0 = .error .zeroDivisionError := by
  constructor
  · simp [simple_allocation]
  · norm_num [optimize_deposits, simplifiedOf, create_optimization_problem,
      lpRows, sumAmounts, assembleAllocs, simple_allocation, Bind.bind,
      Except.bind]

/-- C3 (amended): when the formulation step succeeds and the solver reports
failure or raises, `optimize_deposits` returns exactly the greedy fallback's
outcome (including the fallback's own error, if it raises). -/
theorem solver_failure_falls_back (solver : LPProblem → SolverOutcome)
    (banks_data : List (String × BankInfo)) (T : ℚ) (p : LPProblem)
    (hp : create_optimization_problem (simplifiedOf banks_data) T = .ok p)
    (hf : solver p = .failure ∨ ∃ e, solver p = .raised e) :
    optimize_deposits solver banks_data T =
      simple_allocation (simplifiedOf banks_data) T := by
  rcases hf with hf | ⟨e, hf⟩
  · simp only [optimize_deposits, hp, hf]
    cases h : simple_allocation (simplifiedOf banks_data) T <;> simp [h]
  · simp only [optimize_deposits, hp, hf]

theorem solver_failure_falls_back_witness :
    create_optimization_problem
        (simplifiedOf [("A", ⟨[⟨1/20, 100⟩], false⟩)]) 50 =
      .ok ⟨[-(1/20)], [[1]], [50], [(0, 50)], ["A"]⟩ ∧
    ((fun _ => SolverOutcome.failure) (⟨[-(1/20)], [[1]], [50], [(0, 50)], ["A"]⟩ : LPProblem)
        = SolverOutcome.failure) ∧
    optimize_deposits (fun _ => .failure) [("A", ⟨[⟨1/20, 100⟩], false⟩)] 50 =
      simple_allocation (simplifiedOf [("A", ⟨[⟨1/20, 100⟩], false⟩)]) 50 := by
  have hp : create_optimization_problem
      (simplifiedOf [("A", ⟨[⟨1/20, 100⟩], false⟩)]) 50 =
      .ok ⟨[-(1/20)], [[1]], [50], [(0, 50)], ["A"]⟩ := by
    norm_num [create_optimization_problem, lpRows, sumAmounts, simplifiedOf,
      Bind.bind, Except.bind]
  exact ⟨hp, rfl,
    solver_failure_falls_back (fun _ => .failure) [("A", ⟨[⟨1/20, 100⟩], false⟩)]
      50 ⟨[-(1/20)], [[1]], [50], [(0, 50)], ["A"]⟩ hp (Or.inl rfl)⟩

/-- C3 (counterexample): an exception raised during LP FORMULATION is not
swallowed: `create_optimization_problem` runs before the `try` block, so a
bank with an empty tier list makes `optimize_deposits` raise `IndexError`
to its caller, while the greedy fallback on the same input returns a normal
result. -/
theorem formulation_error_propagates :
    optimize_deposits (fun _ => .failure) [("A", ⟨[], false⟩)] 100 =
      .error .indexError ∧
    simple_allocation (simplifiedOf [("A", ⟨[], false⟩)]) 100 =
      .ok ⟨[], 0, 0, 0⟩ ∧
    optimize_deposits (fun _ => .failure) [("A", ⟨[], false⟩)] 100 ≠
      simple_allocation (simplifiedOf [("A", ⟨[], false⟩)]) 100 := by
  refine ⟨?_, ?_, ?_⟩
  · norm_num [optimize_deposits, simplifiedOf, create_optimization_problem,
      lpRows, Bind.bind, Except.bind]
  · norm_num [simple_allocation, simplifiedOf, flattenBanks, flattenFrom,
      tagTiers, sortDesc, saWalk]
  · norm_num [optimize_deposits, simple_allocation, simplifiedOf,
      create_optimization_problem, lpRows, flattenBanks, flattenFrom,
      tagTiers, sortDesc, saWalk, Bind.bind, Except.bind]
    exact fun hcon => Except.noConfusion hcon

theorem lpRows_names (T : ℚ) :
    ∀ (banks : List (String × List Tier)) (rows : List (String × ℚ × (ℚ × ℚ))),
      lpRows T banks = .ok rows →
      rows.map (fun r => r.1) = banks.map Prod.fst := by
  intro banks
  induction banks with
  | nil =>
    intro rows h
    simp only [lpRows, Except.ok.injEq] at h
    simp [← h]
  | cons b rest ih =>
    intro rows h
    obtain ⟨n, ts⟩ := b
    cases ts with
    | nil => simp [lpRows] at h
    | cons t0 ts2 =>
      cases hr : lpRows T rest with
      | error e => simp [lpRows, hr, Bind.bind, Except.bind] at h
      | ok rows2 =>
        simp only [lpRows, hr, Bind.bind, Except.bind, Except.ok.injEq] at h
        subst h
        simp [ih rows2 hr]

theorem create_bank_names (banks : List (String × List Tier)) (T : ℚ)
    (p : LPProblem) (hp : create_optimization_problem banks T = .ok p) :
    p.bank_names = banks.map Prod.fst := by
  cases hr : lpRows T banks with
  | error e =>
    simp [create_optimization_problem, hr, Bind.bind, Except.bind] at hp
  | ok rows =>
    simp only [create_optimization_problem, hr, Bind.bind, Except.bind,
      Except.ok.injEq] at hp
    rw [← hp]
    exact lpRows_names T banks rows hr

theorem lookup_nodup (banks : List (String × List Tier))
    (hnd : (banks.map Prod.fst).Nodup) :
    ∀ p ∈ banks, lookupTiers p.1 banks = some p.2 := by
  induction banks with
  | nil => simp
  | cons b rest ih =>
    intro p hp
    rcases List.mem_cons.mp hp with h | h
    · subst h
      simp [lookupTiers, List.find?]
    · have hne : ¬ b.1 = p.1 := by
        intro hcon
        have : p.1 ∈ rest.map Prod.fst := List.mem_map_of_mem Prod.fst h
        rw [List.map_cons] at hnd
        exact (List.nodup_cons.mp hnd).1 (hcon ▸ this)
      have ih2 := ih (List.nodup_cons.mp (by rw [List.map_cons] at hnd; exact hnd)).2 p h
      simp only [lookupTiers, List.find?] at ih2 ⊢
      simp [hne]
      simpa [lookupTiers] using ih2

theorem assemble_spec (banksAll : List (String × List Tier)) (x : List ℚ) :
    ∀ (bs : List (String × List Tier)) (i : ℕ),
      (∀ p ∈ bs, lookupTiers p.1 banksAll = some p.2) →
      i + bs.length ≤ x.length →
      assembleAllocs x banksAll (bs.map Prod.fst) i =
        .ok ((bs.zip (x.drop i)).filterMap (fun q =>
          if 1/100 < q.2 then some (q.1.1, mkAllocEntry q.2 q.1.2) else none)) := by
  intro bs
  induction bs with
  | nil => intro i _ _; simp [assembleAllocs]
  | cons b rest ih =>
    intro i hlk hlen
    obtain ⟨n, ts⟩ := b
    have hi : i < x.length := by simp at hlen; omega
    have hget : x.get? i = some (x.get ⟨i, hi⟩) := List.get?_eq_get hi
    have hdrop : x.drop i = x.get ⟨i, hi⟩ :: x.drop (i + 1) :=
      List.drop_eq_get_cons hi
    have hrest : ∀ p ∈ rest, lookupTiers p.1 banksAll = some p.2 :=
      fun p hp => hlk p (by simp [hp])
    have hlen2 : i + 1 + rest.length ≤ x.length := by simp at hlen; omega
    have ih2 := ih (i + 1) hrest hlen2
    simp only [List.map_cons, assembleAllocs, hget]
    rw [hdrop]
    simp only [List.zip_cons_cons, List.filterMap_cons]
    by_cases hth : 1/100 < x.get ⟨i, hi⟩
    · rw [if_pos hth, if_pos hth, hlk (n, ts) (by simp)]
      rw [ih2]
      simp [Bind.bind, Except.bind, mkAllocEntry]
    · rw [if_neg hth, if_neg hth, ih2]

/-- C6 (amended): when the solver succeeds with a full-length vector and the
total investment is nonzero, the result's allocations are exactly the banks
whose solved deposit exceeds the `0.01` threshold, each with the interest
recomputed by `calculate_bank_interest` on the solved deposit (this is what
`mkAllocEntry` records), and the reported total is their sum; banks at or
below the threshold are omitted. -/
theorem solver_success_allocations
    (solver : LPProblem → SolverOutcome) (banks_data : List (String × BankInfo))
    (T : ℚ) (p : LPProblem) (x : List ℚ)
    (hT : T ≠ 0)
    (hnd : ((simplifiedOf banks_data).map Prod.fst).Nodup)
    (hp : create_optimization_problem (simplifiedOf banks_data) T = .ok p)
    (hsv : solver p = .success x)
    (hx : banks_data.length ≤ x.length) :
    ∃ r, optimize_deposits solver banks_data T = .ok r ∧
      r.allocations = ((simplifiedOf banks_data).zip x).filterMap (fun q =>
        if 1/100 < q.2 then some (q.1.1, mkAllocEntry q.2 q.1.2) else none) ∧
      r.total_annual_interest =
        (r.allocations.map (fun q => q.2.annual_interest)).sum := by
  have hnames : p.bank_names = (simplifiedOf banks_data).map Prod.fst :=
    create_bank_names (simplifiedOf banks_data) T p hp
  have hlen : 0 + (simplifiedOf banks_data).length ≤ x.length := by
    simpa [simplifiedOf] using hx
  have hasm := assemble_spec (simplifiedOf banks_data) x (simplifiedOf banks_data)
    0 (lookup_nodup (simplifiedOf banks_data) hnd) hlen
  rw [List.drop_zero] at hasm
  let E := ((simplifiedOf banks_data).zip x).filterMap (fun q =>
    if 1/100 < q.2 then some (q.1.1, mkAllocEntry q.2 q.1.2) else none)
  let SE := (E.map (fun q => q.2.annual_interest)).sum
  refine ⟨⟨E, SE, SE / 12, SE / T * 100⟩, ?_, rfl, rfl⟩
  simp only [optimize_deposits, hp, hsv, hnames, hasm, Bind.bind, Except.bind,
    if_neg hT]

/-- C6 (counterexample): with `totalInvestment = 0` the solver can succeed
(the zero vector is feasible and optimal), yet `optimize_deposits` returns
no result at all: the effective-rate division raises, the fallback raises
the same way, and the caller sees `ZeroDivisionError`. -/
theorem solver_success_zero_investment_error :
    optimize_deposits (fun _ => .success [0]) [("A", ⟨[⟨1/10, 500⟩], false⟩)] 0 =
      .error .zeroDivisionError := by
  norm_num [optimize_deposits, simplifiedOf, create_optimization_problem,
    lpRows, sumAmounts, assembleAllocs, simple_allocation, Bind.bind,
    Except.bind]

theorem solver_success_allocations_witness :
    ((300 : ℚ) ≠ 0) ∧
    ((simplifiedOf [("A", ⟨[⟨1/20, 1000⟩], false⟩),
        ("B", ⟨[⟨1/100, 500⟩], false⟩)]).map Prod.fst).Nodup ∧
    create_optimization_problem
        (simplifiedOf [("A", ⟨[⟨1/20, 1000⟩], false⟩),
          ("B", ⟨[⟨1/100, 500⟩], false⟩)]) 300 =
      .ok ⟨[-(1/20), -(1/100)], [[1, 1]], [300], [(0, 300), (0, 300)],
        ["A", "B"]⟩ ∧
    ([300, 0] : List ℚ).length ≥ 2 ∧
    (∃ r, optimize_deposits (fun _ => .success [300, 0])
        [("A", ⟨[⟨1/20, 1000⟩], false⟩), ("B", ⟨[⟨1/100, 500⟩], false⟩)] 300 =
          .ok r ∧
      r.allocations = ((simplifiedOf [("A", ⟨[⟨1/20, 1000⟩], false⟩),
          ("B", ⟨[⟨1/100, 500⟩], false⟩)]).zip [300, 0]).filterMap (fun q =>
        if 1/100 < q.2 then some (q.1.1, mkAllocEntry q.2 q.1.2) else none) ∧
      r.total_annual_interest =
        (r.allocations.map (fun q => q.2.annual_interest)).sum) := by
  have hp : create_optimization_problem
      (simplifiedOf [("A", ⟨[⟨1/20, 1000⟩], false⟩),
        ("B", ⟨[⟨1/100, 500⟩], false⟩)]) 300 =
      .ok ⟨[-(1/20), -(1/100)], [[1, 1]], [300], [(0, 300), (0, 300)],
        ["A", "B"]⟩ := by
    norm_num [create_optimization_problem, lpRows, sumAmounts, simplifiedOf,
      Bind.bind, Except.bind, List.replicate]
  refine ⟨by norm_num, by simp [simplifiedOf], hp, by norm_num, ?_⟩
  exact solver_success_allocations (fun _ => .success [300, 0])
    [("A", ⟨[⟨1/20, 1000⟩], false⟩), ("B", ⟨[⟨1/100, 500⟩], false⟩)]
    300 _ [300, 0] (by norm_num) (by simp [simplifiedOf]) hp rfl (by norm_num)

theorem le_bestRunning_seed (resOf : String → AllocResult) (S : List String)
    (b : ℚ) : b ≤ bestRunning resOf S b := by
  induction S with
  | nil => exact le_rfl
  | cons k rest ih => exact le_trans ih (le_max_right _ _)

theorem elem_le_bestRunning (resOf : String → AllocResult) (S : List String)
    (b : ℚ) (k : String) (hk : k ∈ S) :
    (resOf k).total_annual_interest ≤ bestRunning resOf S b := by
  induction S with
  | nil => simp at hk
  | cons k0 rest ih =>
    rcases List.mem_cons.mp hk with h | h
    · subst h; exact le_max_left _ _
    · exact le_trans (ih h) (le_max_right _ _)

theorem bestRunning_le (resOf : String → AllocResult) (S : List String)
    (b c : ℚ) (hS : ∀ k ∈ S, (resOf k).total_annual_interest ≤ c)
    (hb : b ≤ c) : bestRunning resOf S b ≤ c := by
  induction S with
  | nil => exact hb
  | cons k0 rest ih =>
    exact max_le (hS k0 (by simp))
      (ih (fun k hk => hS k (by simp [hk])))

theorem bestRunning_max_comm (resOf : String → AllocResult) (S : List String)
    (a b : ℚ) :
    bestRunning resOf S (max a b) = max a (bestRunning resOf S b) := by
  induction S with
  | nil => rfl
  | cons k0 rest ih =>
    simp only [bestRunning, ih]
    rw [max_left_comm]

theorem phase2_no_improve (solver : LPProblem → SolverOutcome)
    (banks_data : List (String × BankInfo)) (T : ℚ)
    (resOf : String → AllocResult) :
    ∀ (S : List String) (best0 : Option (AllocResult × String)) (b0 : ℚ),
      (∀ k ∈ S, optimize_deposits solver (modifiedBanks k banks_data) T =
        .ok (resOf k)) →
      (∀ k ∈ S, (resOf k).total_annual_interest ≤ b0) →
      phase2 solver banks_data T S best0 b0 = .ok best0 := by
  intro S
  induction S with
  | nil => intro best0 b0 _ _; rfl
  | cons k0 rest ih =>
    intro best0 b0 hok hle
    have h0 := hok k0 (by simp)
    have hnlt : ¬ b0 < (resOf k0).total_annual_interest :=
      not_lt.mpr (hle k0 (by simp))
    simp only [phase2, h0, Bind.bind, Except.bind, if_neg hnlt]
    exact ih best0 b0 (fun k hk => hok k (by simp [hk]))
      (fun k hk => hle k (by simp [hk]))

theorem phase2_achieves (solver : LPProblem → SolverOutcome)
    (banks_data : List (String × BankInfo)) (T : ℚ)
    (resOf : String → AllocResult) :
    ∀ (S : List String) (best0 : Option (AllocResult × String)) (b0 : ℚ),
      (∀ k ∈ S, optimize_deposits solver (modifiedBanks k banks_data) T =
        .ok (resOf k)) →
      b0 < bestRunning resOf S b0 →
      ∃ k, S.find? (fun j =>
          decide ((resOf j).total_annual_interest = bestRunning resOf S b0))
            = some k ∧
        phase2 solver banks_data T S best0 b0 = .ok (some (resOf k, k)) := by
  intro S
  induction S with
  | nil => intro best0 b0 _ hlt; exact absurd hlt (lt_irrefl b0)
  | cons k0 rest ih =>
    intro best0 b0 hok hlt
    have h0 := hok k0 (by simp)
    have hokr : ∀ k ∈ rest,
        optimize_deposits solver (modifiedBanks k banks_data) T =
          .ok (resOf k) := fun k hk => hok k (by simp [hk])
    set t0 := (resOf k0).total_annual_interest with ht0
    by_cases hb : b0 < t0
    · -- the head strictly improves; the running best becomes t0
      have hmax : max t0 b0 = t0 := max_eq_left hb.le
      have hM : bestRunning resOf rest t0 =
          bestRunning resOf (k0 :: rest) b0 := by
        simp only [bestRunning]
        rw [← hmax, bestRunning_max_comm]
      by_cases hrest : bestRunning resOf rest t0 ≤ t0
      · -- no later candidate beats the head
        have hMt0 : bestRunning resOf (k0 :: rest) b0 = t0 := by
          rw [← hM]
          exact le_antisymm hrest (le_bestRunning_seed resOf rest t0)
        refine ⟨k0, ?_, ?_⟩
        · rw [List.find?_cons_of_pos _ (by simp [hMt0])]
        · simp only [phase2, h0, Bind.bind, Except.bind, if_pos hb]
          exact phase2_no_improve solver banks_data T resOf rest
            (some (resOf k0, k0)) t0 hokr
            (fun k hk => le_trans
              (elem_le_bestRunning resOf rest t0 k hk) hrest)
      · push_neg at hrest
        obtain ⟨k, hfind, hrun⟩ := ih (some (resOf k0, k0)) t0 hokr hrest
        have hne : ¬ t0 = bestRunning resOf (k0 :: rest) b0 := by
          rw [← hM]
          exact ne_of_lt hrest
        refine ⟨k, ?_, ?_⟩
        · rw [List.find?_cons_of_neg _ (by simpa using hne), ← hM]
          exact hfind
        · simp only [phase2, h0, Bind.bind, Except.bind, if_pos hb]
          exact hrun
    · -- the head does not improve; the loop continues with the old best
      push_neg at hb
      have hle2 : t0 ≤ bestRunning resOf rest b0 :=
        le_trans hb (le_bestRunning_seed resOf rest b0)
      have hM : bestRunning resOf (k0 :: rest) b0 =
          bestRunning resOf rest b0 := by
        simp only [bestRunning]
        exact max_eq_right hle2
      have hlt2 : b0 < bestRunning resOf rest b0 := by
        rw [hM] at hlt; exact hlt
      obtain ⟨k, hfind, hrun⟩ := ih best0 b0 hokr hlt2
      have hne : ¬ t0 = bestRunning resOf (k0 :: rest) b0 := by
        rw [hM]
        exact ne_of_lt (lt_of_le_of_lt hb hlt2)
      refine ⟨k, ?_, ?_⟩
      · rw [List.find?_cons_of_neg _ (by simpa using hne), hM]
        exact hfind
      · have hnlt : ¬ b0 < t0 := not_lt.mpr hb
        simp only [phase2, h0, Bind.bind, Except.bind, if_neg hnlt]
        exact hrun

/-- C10: when at least two salary-requiring banks received allocation in the
unconstrained run and every candidate re-solve returns a total annual
interest that is not strictly positive, the phase-2 loop never assigns its
best-result variable (initial best interest is `0` and only strict
improvements are kept), so `optimize_with_salary_constraint` returns `None`. -/
theorem salary_all_nonpositive_returns_none
    (solver : LPProblem → SolverOutcome)
    (banks_data : List (String × BankInfo)) (T : ℚ) (init : AllocResult)
    (S : List String) (resOf : String → AllocResult)
    (h1 : optimize_deposits solver banks_data T = .ok init)
    (h2 : salaryFilter banks_data (init.allocations.map Prod.fst) = .ok S)
    (h3 : 2 ≤ S.length)
    (h4 : ∀ k ∈ S, optimize_deposits solver (modifiedBanks k banks_data) T =
      .ok (resOf k))
    (h5 : ∀ k ∈ S, (resOf k).total_annual_interest ≤ 0) :
    optimize_with_salary_constraint solver banks_data T = .ok none := by
  rcases S with _ | ⟨s1, _ | ⟨s2, rest⟩⟩
  · simp at h3
  · simp at h3
  · have hph := phase2_no_improve solver banks_data T resOf
      (s1 :: s2 :: rest) none 0 h4 h5
    simp only [optimize_with_salary_constraint, h1, h2, Bind.bind,
      Except.bind, hph]
    rfl

/-- C4 (amended): when at least two salary-requiring banks received
allocation in the unconstrained run, each candidate `k` is re-solved on
`modifiedBanks k` (every OTHER salary-requiring bank keeps its capacities
but has all tier rates set to `0.0`), and - provided the best candidate
total is strictly positive - the search returns the earliest-enumerated
candidate achieving the maximal total annual interest (a later equal result
never replaces an earlier one), tagged with that candidate as the chosen
salary bank.  (If no candidate total is strictly positive the function
returns `None` instead; that case is the subject of C10.) -/
theorem salary_search_best_candidate
    (solver : LPProblem → SolverOutcome)
    (banks_data : List (String × BankInfo)) (T : ℚ) (init : AllocResult)
    (S : List String) (resOf : String → AllocResult)
    (h1 : optimize_deposits solver banks_data T = .ok init)
    (h2 : salaryFilter banks_data (init.allocations.map Prod.fst) = .ok S)
    (h3 : 2 ≤ S.length)
    (h4 : ∀ k ∈ S, optimize_deposits solver (modifiedBanks k banks_data) T =
      .ok (resOf k))
    (h5 : 0 < bestRunning resOf S 0) :
    ∃ k, S.find? (fun j =>
        decide ((resOf j).total_annual_interest = bestRunning resOf S 0)) =
          some k ∧
      optimize_with_salary_constraint solver banks_data T =
        .ok (some (resOf k, some k)) := by
  rcases S with _ | ⟨s1, _ | ⟨s2, rest⟩⟩
  · simp at h3
  · simp at h3
  · obtain ⟨k, hfind, hrun⟩ := phase2_achieves solver banks_data T resOf
      (s1 :: s2 :: rest) none 0 h4 h5
    refine ⟨k, hfind, ?_⟩
    simp only [optimize_with_salary_constraint, h1, h2, Bind.bind,
      Except.bind, hrun]
    rfl

theorem zbanks_run :
    optimize_deposits zsolver zbanks 140 = .ok zres := by
  norm_num [optimize_deposits, simplifiedOf, zbanks, zsolver, zres,
    create_optimization_problem, lpRows, sumAmounts, assembleAllocs,
    lookupTiers, calculate_bank_interest, calcLoop, List.find?,
    Bind.bind, Except.bind]
  simp
  norm_num [calcLoop]

theorem zbanks_modified_A :
    modifiedBanks "A" zbanks = zbanks := by
  norm_num [modifiedBanks, zbanks]

theorem zbanks_modified_B :
    modifiedBanks "B" zbanks = zbanks := by
  norm_num [modifiedBanks, zbanks]

/-- C4 (counterexample): on two salary-requiring banks whose rates are all
zero, the unconstrained run allocates to both (so the claim's premise
holds and both candidates are enumerated, each re-solve succeeding with
total interest `0`), yet `optimize_with_salary_constraint` returns `None`
rather than the earliest maximal candidate tagged with a chosen salary
bank. -/
theorem salary_search_candidate_counterexample :
    optimize_deposits zsolver zbanks 140 = .ok zres ∧
    salaryFilter zbanks (zres.allocations.map Prod.fst) = .ok ["A", "B"] ∧
    optimize_deposits zsolver (modifiedBanks "A" zbanks) 140 = .ok zres ∧
    optimize_deposits zsolver (modifiedBanks "B" zbanks) 140 = .ok zres ∧
    optimize_with_salary_constraint zsolver zbanks 140 = .ok none := by
  have e1 := zbanks_run
  refine ⟨e1, ?_, by rw [zbanks_modified_A]; exact e1,
    by rw [zbanks_modified_B]; exact e1, ?_⟩
  · simp [salaryFilter, zbanks, zres, List.find?, Bind.bind, Except.bind]
  · have e2 : salaryFilter zbanks (zres.allocations.map Prod.fst) =
        .ok ["A", "B"] := by
      simp [salaryFilter, zbanks, zres, List.find?, Bind.bind, Except.bind]
    have e4 : ∀ k ∈ ["A", "B"],
        optimize_deposits zsolver (modifiedBanks k zbanks) 140 =
          .ok ((fun _ => zres) k) := by
      intro k hk
      rcases List.mem_cons.mp hk with h | h
      · subst h; rw [zbanks_modified_A]; exact e1
      · simp only [List.mem_singleton] at h
        subst h; rw [zbanks_modified_B]; exact e1
    exact salary_all_nonpositive_returns_none zsolver zbanks 140 zres
      ["A", "B"] (fun _ => zres) e1 e2 (by norm_num) e4 (by norm_num [zres])

theorem salary_all_nonpositive_returns_none_witness :
    optimize_deposits zsolver zbanks 140 = .ok zres ∧
    salaryFilter zbanks (zres.allocations.map Prod.fst) = .ok ["A", "B"] ∧
    2 ≤ (["A", "B"] : List String).length ∧
    optimize_deposits zsolver (modifiedBanks "A" zbanks) 140 = .ok zres ∧
    optimize_deposits zsolver (modifiedBanks "B" zbanks) 140 = .ok zres ∧
    zres.total_annual_interest ≤ 0 ∧
    optimize_with_salary_constraint zsolver zbanks 140 = .ok none := by
  have e1 := zbanks_run
  have e2 : salaryFilter zbanks (zres.allocations.map Prod.fst) =
      .ok ["A", "B"] := by
    simp [salaryFilter, zbanks, zres, List.find?, Bind.bind, Except.bind]
  have e4 : ∀ k ∈ ["A", "B"],
      optimize_deposits zsolver (modifiedBanks k zbanks) 140 =
        .ok ((fun _ => zres) k) := by
    intro k hk
    rcases List.mem_cons.mp hk with h | h
    · subst h; rw [zbanks_modified_A]; exact e1
    · simp only [List.mem_singleton] at h
      subst h; rw [zbanks_modified_B]; exact e1
  refine ⟨e1, e2, by norm_num, by rw [zbanks_modified_A]; exact e1,
    by rw [zbanks_modified_B]; exact e1, by norm_num [zres], ?_⟩
  exact salary_all_nonpositive_returns_none zsolver zbanks 140 zres
    ["A", "B"] (fun _ => zres) e1 e2 (by norm_num) e4 (by norm_num [zres])

theorem wbanks_run1 :
    optimize_deposits wsolver wbanks 100 = .ok wres1 := by
  norm_num [optimize_deposits, simplifiedOf, wbanks, wsolver, wres1,
    create_optimization_problem, lpRows, sumAmounts, assembleAllocs,
    lookupTiers, calculate_bank_interest, calcLoop, List.find?,
    Bind.bind, Except.bind]
  simp
  norm_num [calcLoop]

theorem wbanks_runA :
    optimize_deposits wsolver (modifiedBanks "A" wbanks) 100 = .ok wresA := by
  norm_num [optimize_deposits, simplifiedOf, wbanks, wsolver, wresA,
    modifiedBanks, create_optimization_problem, lpRows, sumAmounts,
    assembleAllocs, lookupTiers, calculate_bank_interest, calcLoop,
    List.find?, Bind.bind, Except.bind]
  simp [assembleAllocs, lookupTiers, calculate_bank_interest, calcLoop,
    List.find?, Bind.bind, Except.bind]
  try norm_num [calcLoop]

theorem wbanks_runB :
    optimize_deposits wsolver (modifiedBanks "B" wbanks) 100 = .ok wresB := by
  norm_num [optimize_deposits, simplifiedOf, wbanks, wsolver, wresB,
    modifiedBanks, create_optimization_problem, lpRows, sumAmounts,
    assembleAllocs, lookupTiers, calculate_bank_interest, calcLoop,
    List.find?, Bind.bind, Except.bind]
  simp [assembleAllocs, lookupTiers, calculate_bank_interest, calcLoop,
    List.find?, Bind.bind, Except.bind]
  try norm_num [calcLoop]

theorem salary_search_best_candidate_witness :
    optimize_deposits wsolver wbanks 100 = .ok wres1 ∧
    salaryFilter wbanks (wres1.allocations.map Prod.fst) = .ok ["A", "B"] ∧
    2 ≤ (["A", "B"] : List String).length ∧
    optimize_deposits wsolver (modifiedBanks "A" wbanks) 100 = .ok (wresOf "A") ∧
    optimize_deposits wsolver (modifiedBanks "B" wbanks) 100 = .ok (wresOf "B") ∧
    0 < bestRunning wresOf ["A", "B"] 0 ∧
    optimize_with_salary_constraint wsolver wbanks 100 =
      .ok (some (wresA, some "A")) := by
  have e2 : salaryFilter wbanks (wres1.allocations.map Prod.fst) =
      .ok ["A", "B"] := by
    simp [salaryFilter, wbanks, wres1, List.find?, Bind.bind, Except.bind]
  have hA : wresOf "A" = wresA := by simp [wresOf]
  have hB : wresOf "B" = wresB := by simp [wresOf]
  have h4 : ∀ k ∈ ["A", "B"],
      optimize_deposits wsolver (modifiedBanks k wbanks) 100 =
        .ok (wresOf k) := by
    intro k hk
    rcases List.mem_cons.mp hk with h | h
    · subst h; rw [hA]; exact wbanks_runA
    · simp only [List.mem_singleton] at h
      subst h; rw [hB]; exact wbanks_runB
  have h5 : 0 < bestRunning wresOf ["A", "B"] 0 := by
    norm_num [bestRunning, wresOf, wresA, wresB]
  obtain ⟨k, hfind, hrun⟩ := salary_search_best_candidate wsolver wbanks 100
    wres1 ["A", "B"] wresOf wbanks_run1 e2 (by norm_num) h4 h5
  have hbr : bestRunning wresOf ["A", "B"] 0 = 6/5 := by
    simp [bestRunning, wresOf, wresA, wresB]
    norm_num
  rw [hbr] at hfind
  have hk : k = "A" := by
    simp [List.find?, wresOf, wresA] at hfind
    exact hfind.symm
  subst hk
  rw [hA] at hrun
  exact ⟨wbanks_run1, e2, by norm_num, by rw [hA]; exact wbanks_runA,
    by rw [hB]; exact wbanks_runB, h5, hrun⟩

theorem saWalk_total (l : List FlatTier) :
    ∀ (rem : ℚ) (allocs : List (String × AllocEntry)) (tot : ℚ),
      (saWalk l rem allocs tot).2 = tot + foldTotal l rem := by
  induction l with
  | nil => intro rem allocs tot; simp [saWalk, foldTotal]
  | cons t rest ih =>
    intro rem allocs tot
    by_cases h : rem ≤ 0
    · simp [saWalk, foldTotal, h]
    · simp only [saWalk, foldTotal, if_neg h]
      rw [ih]
      ring

theorem simple_allocation_total (banks : List (String × List Tier)) (T : ℚ)
    (hT : T ≠ 0) :
    ∃ res, simple_allocation banks T = .ok res ∧
      res.total_annual_interest = foldTotal (sortDesc (flattenBanks banks)) T := by
  refine ⟨⟨(saWalk (sortDesc (flattenBanks banks)) T [] 0).1,
    (saWalk (sortDesc (flattenBanks banks)) T [] 0).2,
    (saWalk (sortDesc (flattenBanks banks)) T [] 0).2 / 12,
    (saWalk (sortDesc (flattenBanks banks)) T [] 0).2 / T * 100⟩, ?_, ?_⟩
  · simp only [simple_allocation, if_neg hT]
  · simp only [saWalk_total, zero_add]

theorem walkAssign_fst (l : List FlatTier) : ∀ rem : ℚ,
    (walkAssign l rem).map Prod.fst = l := by
  induction l with
  | nil => intro rem; rfl
  | cons t rest ih => intro rem; simp [walkAssign, ih]

theorem walkAssign_nonpos (l : List FlatTier) : ∀ rem : ℚ, rem ≤ 0 →
    ∀ p ∈ walkAssign l rem, p.2 = 0 := by
  induction l with
  | nil => intro rem _ p hp; simp [walkAssign] at hp
  | cons t rest ih =>
    intro rem hrem p hp
    simp only [walkAssign, if_pos hrem] at hp
    rcases List.mem_cons.mp hp with h | h
    · rw [h]
    · exact ih (rem - 0) (by linarith) p h

theorem foldTotal_eq_value (l : List FlatTier) : ∀ rem : ℚ,
    foldTotal l rem = assignValue (walkAssign l rem) := by
  induction l with
  | nil => intro rem; rfl
  | cons t rest ih =>
    intro rem
    by_cases h : rem ≤ 0
    · simp only [foldTotal, if_pos h, walkAssign, assignValue, List.map_cons,
        List.sum_cons, mul_zero]
      have hz : ∀ p ∈ walkAssign rest (rem - 0), p.2 = 0 :=
        walkAssign_nonpos rest (rem - 0) (by linarith)
      have : ((walkAssign rest (rem - 0)).map (fun p => p.1.rate * p.2)).sum
          = 0 := by
        apply List.sum_eq_zero
        intro x hx
        obtain ⟨p, hp, hpx⟩ := List.mem_map.mp hx
        rw [← hpx, hz p hp, mul_zero]
      rw [this]
      ring
    · simp only [foldTotal, if_neg h, walkAssign, assignValue, List.map_cons,
        List.sum_cons]
      rw [ih]
      rfl

theorem walkAssign_amt_nonneg (l : List FlatTier)
    (hc : ∀ ft ∈ l, 0 ≤ ft.amount) : ∀ rem : ℚ,
    ∀ p ∈ walkAssign l rem, 0 ≤ p.2 := by
  induction l with
  | nil => intro rem p hp; simp [walkAssign] at hp
  | cons t rest ih =>
    intro rem p hp
    simp only [walkAssign] at hp
    rcases List.mem_cons.mp hp with h | h
    · rw [h]
      split
      · exact le_refl 0
      · rename_i hpos
        push_neg at hpos
        exact le_min hpos.le (hc t (by simp))
    · exact ih (fun ft hft => hc ft (by simp [hft])) _ p h

theorem walkAssign_amt_le (l : List FlatTier)
    (hc : ∀ ft ∈ l, 0 ≤ ft.amount) : ∀ rem : ℚ,
    ∀ p ∈ walkAssign l rem, p.2 ≤ p.1.amount := by
  induction l with
  | nil => intro rem p hp; simp [walkAssign] at hp
  | cons t rest ih =>
    intro rem p hp
    simp only [walkAssign] at hp
    rcases List.mem_cons.mp hp with h | h
    · rw [h]
      split
      · exact hc t (by simp)
      · exact min_le_right _ _
    · exact ih (fun ft hft => hc ft (by simp [hft])) _ p h

theorem walkAssign_sum_le (l : List FlatTier) : ∀ rem : ℚ, 0 ≤ rem →
    amtSum (walkAssign l rem) ≤ rem := by
  induction l with
  | nil => intro rem h; simpa [walkAssign, amtSum] using h
  | cons t rest ih =>
    intro rem hrem
    by_cases h : rem ≤ 0
    · simp only [walkAssign, if_pos h, amtSum, List.map_cons, List.sum_cons]
      have := ih (rem - 0) (by linarith)
      simp only [amtSum] at this
      linarith
    · push_neg at h
      by_cases hca : min rem t.amount ≤ 0
      · simp only [walkAssign, if_neg (not_le.mpr h), amtSum, List.map_cons,
          List.sum_cons]
        have := ih (rem - min rem t.amount) (by linarith [min_le_left rem t.amount])
        simp only [amtSum] at this
        linarith [min_le_left rem t.amount]
      · simp only [walkAssign, if_neg (not_le.mpr h), amtSum, List.map_cons,
          List.sum_cons]
        have := ih (rem - min rem t.amount) (by linarith [min_le_left rem t.amount])
        simp only [amtSum] at this
        linarith [min_le_left rem t.amount]

theorem walkAssign_halt (l : List FlatTier) : ∀ rem : ℚ,
    (walkAssign l rem).Pairwise (fun p q => p.2 < p.1.amount → q.2 = 0) := by
  induction l with
  | nil => intro rem; simp [walkAssign]
  | cons t rest ih =>
    intro rem
    simp only [walkAssign]
    refine List.Pairwise.cons ?_ (ih _)
    intro q hq hlt
    by_cases h : rem ≤ 0
    · rw [if_pos h] at hq
      exact walkAssign_nonpos rest (rem - 0) (by linarith) q hq
    · rw [if_neg h] at hq
      rw [if_neg h] at hlt
      have hmr : min rem t.amount = rem := by
        rcases min_cases rem t.amount with ⟨h1, _⟩ | ⟨h1, h2⟩
        · exact h1
        · rw [h1] at hlt; exact absurd hlt (lt_irrefl _)
      rw [hmr] at hq
      exact walkAssign_nonpos rest (rem - rem) (by linarith) q hq

theorem walkAssign_sum_nonpos (l : List FlatTier) (rem : ℚ) (h : rem ≤ 0) :
    amtSum (walkAssign l rem) = 0 := by
  apply List.sum_eq_zero
  intro x hx
  obtain ⟨p, hp, hpx⟩ := List.mem_map.mp hx
  rw [← hpx, walkAssign_nonpos l rem h p hp]

theorem walkAssign_full (l : List FlatTier) : ∀ rem : ℚ, 0 ≤ rem →
    amtSum (walkAssign l rem) < rem →
    ∀ p ∈ walkAssign l rem, p.2 = p.1.amount := by
  induction l with
  | nil => intro rem _ _ p hp; simp [walkAssign] at hp
  | cons t rest ih =>
    intro rem hrem hlt p hp
    by_cases h : rem ≤ 0
    · exfalso
      rw [walkAssign_sum_nonpos (t :: rest) rem h] at hlt
      linarith
    · push_neg at h
      simp only [walkAssign, if_neg (not_le.mpr h)] at hp hlt
      simp only [amtSum, List.map_cons, List.sum_cons] at hlt
      rcases List.mem_cons.mp hp with hph | hph
      · rw [hph]
        simp only
        rcases min_cases rem t.amount with ⟨h1, h2⟩ | ⟨h1, _⟩
        · exfalso
          have hz := walkAssign_sum_nonpos rest (rem - min rem t.amount)
            (by rw [h1]; linarith)
          simp only [amtSum] at hz
          rw [hz] at hlt
          rw [h1] at hlt
          linarith
        · exact h1
      · have hrem2 : 0 ≤ rem - min rem t.amount := by
          linarith [min_le_left rem t.amount]
        have hlt2 : amtSum (walkAssign rest (rem - min rem t.amount)) <
            rem - min rem t.amount := by
          simp only [amtSum]
          linarith [min_le_left rem t.amount]
        exact ih (rem - min rem t.amount) hrem2 hlt2 p hph

theorem insertD_perm (x : FlatTier) (l : List FlatTier) :
    (insertD x l).Perm (x :: l) := by
  induction l with
  | nil => exact List.Perm.refl _
  | cons y ys ih =>
    simp only [insertD]
    split
    · exact List.Perm.refl _
    · exact (List.Perm.cons y ih).trans (List.Perm.swap x y ys)

theorem sortDesc_perm (l : List FlatTier) : (sortDesc l).Perm l := by
  induction l with
  | nil => exact List.Perm.refl _
  | cons x xs ih =>
    exact (insertD_perm x (sortDesc xs)).trans (List.Perm.cons x ih)

theorem insertD_sorted (x : FlatTier) (l : List FlatTier)
    (hl : l.Pairwise (fun a b => b.rate ≤ a.rate)) :
    (insertD x l).Pairwise (fun a b => b.rate ≤ a.rate) := by
  induction l with
  | nil => simp [insertD]
  | cons y ys ih =>
    simp only [insertD]
    rcases List.pairwise_cons.mp hl with ⟨hy, hys⟩
    split
    · rename_i hxy
      refine List.pairwise_cons.mpr ⟨?_, hl⟩
      intro z hz
      rcases List.mem_cons.mp hz with h | h
      · rw [h]; exact hxy
      · exact le_trans (hy z h) hxy
    · rename_i hxy
      push_neg at hxy
      refine List.pairwise_cons.mpr ⟨?_, ih hys⟩
      intro z hz
      have hz2 := (insertD_perm x ys).mem_iff.mp hz
      rcases List.mem_cons.mp hz2 with h | h
      · rw [h]; exact hxy.le
      · exact hy z h

theorem sortDesc_sorted (l : List FlatTier) :
    (sortDesc l).Pairwise (fun a b => b.rate ≤ a.rate) := by
  induction l with
  | nil => simp [sortDesc]
  | cons x xs ih => exact insertD_sorted x (sortDesc xs) ih

theorem filter_insertD_pos (p : FlatTier → Bool) (x : FlatTier)
    (hx : p x = true) :
    ∀ (l : List FlatTier), (∀ y ∈ l, p y = true → y.rate ≤ x.rate) →
      (insertD x l).filter p = x :: l.filter p := by
  intro l
  induction l with
  | nil => intro _; simp [insertD, hx]
  | cons y ys ih =>
    intro hle
    simp only [insertD]
    split
    · simp [List.filter_cons, hx]
    · rename_i hxy
      push_neg at hxy
      have hpy : p y = false := by
        cases hpy : p y with
        | false => rfl
        | true => exact absurd (hle y (by simp) hpy) (not_le.mpr hxy)
      have e1 : (y :: insertD x ys).filter p = (insertD x ys).filter p := by
        simp [List.filter_cons, hpy]
      have e2 : (y :: ys).filter p = ys.filter p := by
        simp [List.filter_cons, hpy]
      rw [e1, e2]
      exact ih (fun z hz hpz => hle z (by simp [hz]) hpz)

theorem filter_insertD_neg (p : FlatTier → Bool) (x : FlatTier)
    (hx : p x = false) (l : List FlatTier) :
    (insertD x l).filter p = l.filter p := by
  induction l with
  | nil => simp [insertD, hx]
  | cons y ys ih =>
    simp only [insertD]
    split
    · simp [List.filter_cons, hx]
    · simp only [List.filter_cons, ih]

theorem filter_sortDesc (p : FlatTier → Bool) (l : List FlatTier)
    (hl : (l.filter p).Pairwise (fun a b => b.rate ≤ a.rate)) :
    (sortDesc l).filter p = l.filter p := by
  induction l with
  | nil => rfl
  | cons x xs ih =>
    simp only [sortDesc]
    cases hx : p x with
    | true =>
      have hfx : (x :: xs).filter p = x :: xs.filter p := by
        simp [List.filter_cons, hx]
      rw [hfx] at hl
      rcases List.pairwise_cons.mp hl with ⟨hxle, hxs⟩
      have ih2 := ih hxs
      rw [filter_insertD_pos p x hx (sortDesc xs) ?_, ih2, hfx]
      intro y hy hpy
      have : y ∈ xs.filter p := by
        rw [← ih2]
        exact List.mem_filter.mpr ⟨hy, hpy⟩
      exact hxle y this
    | false =>
      have hfx : (x :: xs).filter p = xs.filter p := by
        simp [List.filter_cons, hx]
      rw [hfx] at hl
      rw [filter_insertD_neg p x hx (sortDesc xs), ih hl, hfx]

theorem flattenFrom_idx (banks : List (String × List Tier)) : ∀ (j : ℕ)
    (ft : FlatTier), ft ∈ flattenFrom j banks →
    j ≤ ft.bankIdx ∧ ft.bankIdx < j + banks.length := by
  induction banks with
  | nil => intro j ft hft; simp [flattenFrom] at hft
  | cons b rest ih =>
    intro j ft hft
    obtain ⟨n, ts⟩ := b
    simp only [flattenFrom, List.mem_append] at hft
    rcases hft with h | h
    · obtain ⟨t, _, hteq⟩ := List.mem_map.mp h
      rw [← hteq]
      simp
    · have := ih (j + 1) ft h
      constructor
      · omega
      · simp only [List.length_cons]
        omega

theorem mem_flattenFrom_tier (banks : List (String × List Tier)) : ∀ (j : ℕ)
    (ft : FlatTier), ft ∈ flattenFrom j banks →
    ∃ p ∈ banks, ∃ t ∈ p.2, ft.rate = t.rate ∧ ft.amount = t.amount := by
  induction banks with
  | nil => intro j ft hft; simp [flattenFrom] at hft
  | cons b rest ih =>
    intro j ft hft
    obtain ⟨n, ts⟩ := b
    simp only [flattenFrom, List.mem_append] at hft
    rcases hft with h | h
    · obtain ⟨t, ht, hteq⟩ := List.mem_map.mp h
      exact ⟨(n, ts), by simp, t, ht, by rw [← hteq], by rw [← hteq]⟩
    · obtain ⟨p, hp, t, ht, he⟩ := ih (j + 1) ft h
      exact ⟨p, by simp [hp], t, ht, he⟩

theorem flattenFrom_filter (banks : List (String × List Tier)) : ∀ (j k : ℕ),
    (flattenFrom j banks).filter (fun ft => ft.bankIdx = j + k) =
      tagTiers (((banks.get? k).map Prod.fst).getD "") (j + k)
        (tiersAt banks k) := by
  induction banks with
  | nil => intro j k; simp [flattenFrom, tiersAt, tagTiers]
  | cons b rest ih =>
    intro j k
    obtain ⟨n, ts⟩ := b
    simp only [flattenFrom, List.filter_append]
    cases k with
    | zero =>
      have h1 : (tagTiers n j ts).filter (fun ft => ft.bankIdx = j + 0) =
          tagTiers n j ts := by
        apply List.filter_eq_self.mpr
        intro ft hft
        obtain ⟨t, _, hteq⟩ := List.mem_map.mp hft
        simp [← hteq]
      have h2 : (flattenFrom (j + 1) rest).filter
          (fun ft => ft.bankIdx = j + 0) = [] := by
        apply List.filter_eq_nil.mpr
        intro ft hft
        have := flattenFrom_idx rest (j + 1) ft hft
        simp
        omega
      rw [h1, h2, List.append_nil]
      simp [tiersAt, tagTiers]
    | succ k2 =>
      have h1 : (tagTiers n j ts).filter
          (fun ft => ft.bankIdx = j + (k2 + 1)) = [] := by
        apply List.filter_eq_nil.mpr
        intro ft hft
        obtain ⟨t, _, hteq⟩ := List.mem_map.mp hft
        simp [← hteq]
      have h2 : (flattenFrom (j + 1) rest).filter
          (fun ft => ft.bankIdx = j + (k2 + 1)) =
          (flattenFrom (j + 1) rest).filter
            (fun ft => ft.bankIdx = (j + 1) + k2) := by
        congr 1
        funext ft
        have : j + (k2 + 1) = (j + 1) + k2 := by omega
        rw [this]
      rw [h1, h2, ih (j + 1) k2, List.nil_append]
      have : j + (k2 + 1) = (j + 1) + k2 := by omega
      rw [this]
      simp [tiersAt]

theorem amtSum_nonneg (la : List (FlatTier × ℚ)) (h : ∀ p ∈ la, 0 ≤ p.2) :
    0 ≤ amtSum la := by
  apply List.sum_nonneg
  intro x hx
  obtain ⟨p, hp, hpx⟩ := List.mem_map.mp hx
  rw [← hpx]
  exact h p hp

theorem assignValue_eq_zero (la : List (FlatTier × ℚ))
    (h : ∀ p ∈ la, 0 ≤ p.2) (hsum : amtSum la ≤ 0) : assignValue la = 0 := by
  induction la with
  | nil => rfl
  | cons q rest ih =>
    have hS : 0 ≤ amtSum rest :=
      amtSum_nonneg rest (fun p hp => h p (by simp [hp]))
    have hq : 0 ≤ q.2 := h q (by simp)
    simp only [amtSum, List.map_cons, List.sum_cons] at hsum
    have hq0 : q.2 = 0 := by
      simp only [amtSum] at hS
      linarith
    simp only [assignValue, List.map_cons, List.sum_cons, hq0, mul_zero,
      zero_add]
    have := ih (fun p hp => h p (by simp [hp])) (by simp only [amtSum]; linarith)
    simpa [assignValue] using this

theorem foldTotal_nonneg (l : List FlatTier)
    (h : ∀ ft ∈ l, 0 ≤ ft.rate ∧ 0 ≤ ft.amount) : ∀ T : ℚ,
    0 ≤ foldTotal l T := by
  induction l with
  | nil => intro T; exact le_refl 0
  | cons t ts ih =>
    intro T
    simp only [foldTotal]
    split
    · exact le_refl 0
    · rename_i hT
      push_neg at hT
      have h1 : 0 ≤ t.rate * min T t.amount :=
        mul_nonneg (h t (by simp)).1 (le_min hT.le (h t (by simp)).2)
      have h2 := ih (fun ft hft => h ft (by simp [hft])) (T - min T t.amount)
      linarith

theorem sub_min_mono (B T c : ℚ) (h : B ≤ T) :
    B - min B c ≤ T - min T c := by
  rcases le_total B c with h1 | h1
  · rw [min_eq_left h1]
    rcases le_total T c with h2 | h2
    · rw [min_eq_left h2]; linarith
    · rw [min_eq_right h2]; linarith
  · rw [min_eq_right h1]
    rcases le_total T c with h2 | h2
    · rw [min_eq_left h2]; linarith
    · rw [min_eq_right h2]; linarith

theorem foldTotal_mono (l : List FlatTier)
    (h : ∀ ft ∈ l, 0 ≤ ft.rate ∧ 0 ≤ ft.amount) : ∀ B T : ℚ, B ≤ T →
    foldTotal l B ≤ foldTotal l T := by
  induction l with
  | nil => intro B T _; exact le_refl 0
  | cons t ts ih =>
    intro B T hBT
    by_cases hB : B ≤ 0
    · simp only [foldTotal, if_pos hB]
      exact foldTotal_nonneg (t :: ts) h T
    · have hT : ¬ T ≤ 0 := by push_neg at hB ⊢; linarith
      simp only [foldTotal, if_neg hB, if_neg hT]
      have hmin : min B t.amount ≤ min T t.amount := min_le_min hBT le_rfl
      have h1 : t.rate * min B t.amount ≤ t.rate * min T t.amount :=
        mul_le_mul_of_nonneg_left hmin (h t (by simp)).1
      have h2 := ih (fun ft hft => h ft (by simp [hft]))
        (B - min B t.amount) (T - min T t.amount) (sub_min_mono B T t.amount hBT)
      linarith

theorem foldTotal_le_linear (l : List FlatTier) (R : ℚ) (hR : 0 ≤ R)
    (hr : ∀ ft ∈ l, ft.rate ≤ R) (hc : ∀ ft ∈ l, 0 ≤ ft.amount) :
    ∀ T : ℚ, 0 ≤ T → foldTotal l T ≤ R * T := by
  induction l with
  | nil => intro T hT; exact mul_nonneg hR hT
  | cons t ts ih =>
    intro T hT
    simp only [foldTotal]
    split
    · exact mul_nonneg hR hT
    · rename_i hT2
      push_neg at hT2
      have hm0 : 0 ≤ min T t.amount := le_min hT (hc t (by simp))
      have hmT : min T t.amount ≤ T := min_le_left _ _
      have h1 : t.rate * min T t.amount ≤ R * min T t.amount :=
        mul_le_mul_of_nonneg_right (hr t (by simp)) hm0
      have h2 := ih (fun ft hft => hr ft (by simp [hft]))
        (fun ft hft => hc ft (by simp [hft])) (T - min T t.amount)
        (by linarith)
      have e1 : R * T = R * min T t.amount + R * (T - min T t.amount) := by
        ring
      linarith

theorem foldTotal_lipschitz (l : List FlatTier) (R : ℚ) (hR : 0 ≤ R)
    (hr : ∀ ft ∈ l, ft.rate ≤ R) (hc : ∀ ft ∈ l, 0 ≤ ft.amount)
    (hnn : ∀ ft ∈ l, 0 ≤ ft.rate) :
    ∀ B T : ℚ, B ≤ T → foldTotal l T ≤ foldTotal l B + R * (T - B) := by
  induction l with
  | nil =>
    intro B T hBT
    have : 0 ≤ R * (T - B) := mul_nonneg hR (by linarith)
    simpa [foldTotal] using this
  | cons t ts ih =>
    intro B T hBT
    by_cases hT : T ≤ 0
    · have hB : B ≤ 0 := le_trans hBT hT
      simp only [foldTotal, if_pos hT, if_pos hB]
      have : 0 ≤ R * (T - B) := mul_nonneg hR (by linarith)
      linarith
    · by_cases hB : B ≤ 0
      · simp only [foldTotal, if_pos hB]
        push_neg at hT
        have h1 := foldTotal_le_linear (t :: ts) R hR hr hc T hT.le
        have h2 : R * T ≤ R * (T - B) :=
          mul_le_mul_of_nonneg_left (by linarith) hR
        simp only [foldTotal] at h1
        rw [if_neg (not_le.mpr hT)] at h1 ⊢
        linarith
      · simp only [foldTotal, if_neg hB, if_neg hT]
        have hg : min B t.amount ≤ min T t.amount := min_le_min hBT le_rfl
        have h5 : t.rate * (min T t.amount - min B t.amount) ≤
            R * (min T t.amount - min B t.amount) :=
          mul_le_mul_of_nonneg_right (hr t (by simp)) (by linarith)
        have h6 := ih (fun ft hft => hr ft (by simp [hft]))
          (fun ft hft => hc ft (by simp [hft]))
          (fun ft hft => hnn ft (by simp [hft]))
          (B - min B t.amount) (T - min T t.amount)
          (sub_min_mono B T t.amount hBT)
        have e1 : t.rate * min T t.amount = t.rate * min B t.amount +
            t.rate * (min T t.amount - min B t.amount) := by ring
        have e2 : R * ((T - min T t.amount) - (B - min B t.amount)) =
            R * (T - B) - R * (min T t.amount - min B t.amount) := by ring
        linarith

theorem knapsack_bound : ∀ (la : List (FlatTier × ℚ)) (T : ℚ), 0 ≤ T →
    (la.map Prod.fst).Pairwise (fun a b => b.rate ≤ a.rate) →
    (∀ p ∈ la, 0 ≤ p.1.rate ∧ 0 ≤ p.1.amount ∧ 0 ≤ p.2 ∧ p.2 ≤ p.1.amount) →
    amtSum la ≤ T →
    assignValue la ≤ foldTotal (la.map Prod.fst) T := by
  intro la
  induction la with
  | nil => intro T hT _ _ _; exact le_refl 0
  | cons q rest ih =>
    intro T hT hsort hb hsum
    obtain ⟨t, a0⟩ := q
    have hbt := hb (t, a0) (by simp)
    have hbrest : ∀ p ∈ rest,
        0 ≤ p.1.rate ∧ 0 ≤ p.1.amount ∧ 0 ≤ p.2 ∧ p.2 ≤ p.1.amount :=
      fun p hp => hb p (by simp [hp])
    have hS : 0 ≤ amtSum rest :=
      amtSum_nonneg rest (fun p hp => (hbrest p hp).2.2.1)
    simp only [amtSum, List.map_cons, List.sum_cons] at hsum
    simp only [amtSum] at hS
    rw [List.map_cons] at hsort
    rcases List.pairwise_cons.mp hsort with ⟨hhead, hrest⟩
    by_cases hT0 : T ≤ 0
    · have hval : assignValue ((t, a0) :: rest) = 0 := by
        apply assignValue_eq_zero
        · intro p hp
          rcases List.mem_cons.mp hp with h | h
          · rw [h]; exact hbt.2.2.1
          · exact (hbrest p h).2.2.1
        · simp only [amtSum, List.map_cons, List.sum_cons]
          linarith
      rw [hval]
      exact foldTotal_nonneg _ (by
        intro ft hft
        obtain ⟨p, hp, hpe⟩ := List.mem_map.mp hft
        rcases List.mem_cons.mp hp with h | h
        · rw [← hpe, h]; exact ⟨hbt.1, hbt.2.1⟩
        · rw [← hpe]; exact ⟨(hbrest p h).1, (hbrest p h).2.1⟩) T
    · push_neg at hT0
      simp only [List.map_cons, foldTotal, if_neg (not_le.mpr hT0)]
      set g := min T t.amount with hgdef
      have hg0 : 0 ≤ g := le_min hT0.le hbt.2.1
      have hgT : g ≤ T := min_le_left _ _
      have ha0g : a0 ≤ g := by
        apply le_min
        · linarith [hbt.2.2.1]
        · exact hbt.2.2.2
      have hrr : ∀ ft ∈ rest.map Prod.fst, 0 ≤ ft.rate ∧ 0 ≤ ft.amount := by
        intro ft hft
        obtain ⟨p, hp, hpe⟩ := List.mem_map.mp hft
        rw [← hpe]
        exact ⟨(hbrest p hp).1, (hbrest p hp).2.1⟩
      have hvr := ih (amtSum rest) hS hrest hbrest le_rfl
      simp only [assignValue, List.map_cons, List.sum_cons]
      by_cases hcase : amtSum rest ≤ T - g
      · have h1 := foldTotal_mono (rest.map Prod.fst) hrr
          (amtSum rest) (T - g) hcase
        have h2 : t.rate * a0 ≤ t.rate * g :=
          mul_le_mul_of_nonneg_left ha0g hbt.1
        simp only [assignValue] at hvr
        linarith
      · push_neg at hcase
        have hlip := foldTotal_lipschitz (rest.map Prod.fst) t.rate hbt.1
          (fun ft hft => hhead ft hft)
          (fun ft hft => (hrr ft hft).2)
          (fun ft hft => (hrr ft hft).1)
          (T - g) (amtSum rest) hcase.le
        have hkey : t.rate * (a0 + amtSum rest - T + g) ≤ t.rate * g := by
          apply mul_le_mul_of_nonneg_left _ hbt.1
          simp only [amtSum]
          linarith
        have e3 : t.rate * (amtSum rest - (T - g)) =
            t.rate * (a0 + amtSum rest - T + g) - t.rate * a0 := by ring
        simp only [assignValue] at hvr
        simp only [amtSum] at hvr hlip e3 hkey hcase
        linarith

theorem amtSum_zero_map (l : List FlatTier) :
    amtSum (l.map (fun u => (u, (0 : ℚ)))) = 0 := by
  simp [amtSum, List.map_map, Function.comp_def]

theorem assignValue_zero_map (l : List FlatTier) :
    assignValue (l.map (fun u => (u, (0 : ℚ)))) = 0 := by
  simp [assignValue, List.map_map, Function.comp_def]

theorem calcLoop_nonpos (L : List Tier) (rem : ℚ) (h : rem ≤ 0) :
    (calcLoop rem L).1 = 0 := by
  cases L with
  | nil => rfl
  | cons t ts =>
    simp only [calcLoop]
    rw [if_pos (le_trans (min_le_left rem t.amount) h)]

theorem calcAssign_fst (l : List FlatTier) : ∀ d : ℚ,
    (calcAssign d l).map Prod.fst = l := by
  induction l with
  | nil => intro d; rfl
  | cons t ts ih =>
    intro d
    simp only [calcAssign]
    split
    · simp [List.map_map, Function.comp_def]
    · simp [ih]

theorem calcAssign_value_loop (l : List FlatTier) : ∀ d : ℚ,
    assignValue (calcAssign d l) = (calcLoop d (l.map untag)).1 := by
  induction l with
  | nil => intro d; rfl
  | cons t ts ih =>
    intro d
    simp only [calcAssign, List.map_cons, calcLoop, untag]
    split
    · simpa using assignValue_zero_map (t :: ts)
    · have := ih (d - min d t.amount)
      simp only [assignValue] at this
      simp [assignValue, this]
      ring

theorem calcAssign_value (l : List FlatTier) (d : ℚ) :
    assignValue (calcAssign d l) =
      (calculate_bank_interest d (l.map untag)).total_interest := by
  rw [calcAssign_value_loop]
  unfold calculate_bank_interest
  split
  · rename_i h
    simp [calcLoop_nonpos (l.map untag) d h]
  · rfl

theorem calcAssign_bounds (l : List FlatTier)
    (hc : ∀ ft ∈ l, 0 ≤ ft.amount) : ∀ d : ℚ,
    ∀ p ∈ calcAssign d l, 0 ≤ p.2 ∧ p.2 ≤ p.1.amount := by
  induction l with
  | nil => intro d p hp; simp [calcAssign] at hp
  | cons t ts ih =>
    intro d p hp
    simp only [calcAssign] at hp
    rcases hcond : decide (min d t.amount ≤ 0) with _ | _
    · rw [if_neg (by simpa using hcond)] at hp
      rcases List.mem_cons.mp hp with h | h
      · rw [h]
        have : ¬ min d t.amount ≤ 0 := by simpa using hcond
        push_neg at this
        exact ⟨this.le, min_le_right _ _⟩
      · exact ih (fun ft hft => hc ft (by simp [hft])) _ p h
    · rw [if_pos (by simpa using hcond)] at hp
      obtain ⟨u, hu, hue⟩ := List.mem_map.mp hp
      rw [← hue]
      exact ⟨le_refl 0, hc u hu⟩

theorem calcAssign_sum_le (l : List FlatTier) : ∀ d : ℚ, 0 ≤ d →
    amtSum (calcAssign d l) ≤ d := by
  induction l with
  | nil => intro d hd; simpa [calcAssign, amtSum] using hd
  | cons t ts ih =>
    intro d hd
    simp only [calcAssign]
    split
    · rw [amtSum_zero_map]
      exact hd
    · rename_i h
      push_neg at h
      simp only [amtSum, List.map_cons, List.sum_cons]
      have hmd : min d t.amount ≤ d := min_le_left _ _
      have := ih (d - min d t.amount) (by linarith)
      simp only [amtSum] at this
      linarith

theorem untag_tagTiers (n : String) (j : ℕ) : ∀ ts : List Tier,
    (tagTiers n j ts).map untag = ts := by
  intro ts
  induction ts with
  | nil => rfl
  | cons t rest ih =>
    simp only [tagTiers, List.map_cons] at ih ⊢
    rw [ih]
    cases t
    rfl

theorem tagTiers_amount (n : String) (j : ℕ) (ts : List Tier)
    (h : ∀ t ∈ ts, 0 ≤ t.amount) : ∀ ft ∈ tagTiers n j ts, 0 ≤ ft.amount := by
  intro ft hft
  obtain ⟨t, ht, hteq⟩ := List.mem_map.mp hft
  rw [← hteq]
  exact h t ht

theorem splitAssignFrom_fst : ∀ (banks : List (String × List Tier))
    (ds : List ℚ) (j : ℕ), ds.length = banks.length →
    (splitAssignFrom j banks ds).map Prod.fst = flattenFrom j banks := by
  intro banks
  induction banks with
  | nil => intro ds j _; rfl
  | cons b rest ih =>
    intro ds j hlen
    obtain ⟨n, ts⟩ := b
    cases ds with
    | nil => simp at hlen
    | cons d ds2 =>
      simp only [splitAssignFrom, flattenFrom, List.map_append]
      rw [calcAssign_fst, ih ds2 (j + 1) (by simpa using hlen)]

theorem splitAssignFrom_value : ∀ (banks : List (String × List Tier))
    (ds : List ℚ) (j : ℕ),
    assignValue (splitAssignFrom j banks ds) = splitValue banks ds := by
  intro banks
  induction banks with
  | nil => intro ds j; simp [splitAssignFrom, splitValue, assignValue]
  | cons b rest ih =>
    intro ds j
    obtain ⟨n, ts⟩ := b
    cases ds with
    | nil => simp [splitAssignFrom, splitValue, assignValue]
    | cons d ds2 =>
      simp only [splitAssignFrom, splitValue, List.zipWith_cons_cons,
        List.sum_cons]
      have h1 : assignValue (calcAssign d (tagTiers n j ts) ++
          splitAssignFrom (j + 1) rest ds2) =
          assignValue (calcAssign d (tagTiers n j ts)) +
          assignValue (splitAssignFrom (j + 1) rest ds2) := by
        simp [assignValue]
      rw [h1, calcAssign_value, untag_tagTiers, ih ds2 (j + 1)]
      rfl

theorem splitAssignFrom_bounds : ∀ (banks : List (String × List Tier))
    (ds : List ℚ) (j : ℕ),
    (∀ p ∈ banks, ∀ t ∈ p.2, 0 ≤ t.amount) →
    ∀ q ∈ splitAssignFrom j banks ds, 0 ≤ q.2 ∧ q.2 ≤ q.1.amount := by
  intro banks
  induction banks with
  | nil => intro ds j _ q hq; simp [splitAssignFrom] at hq
  | cons b rest ih =>
    intro ds j hc q hq
    obtain ⟨n, ts⟩ := b
    cases ds with
    | nil => simp [splitAssignFrom] at hq
    | cons d ds2 =>
      simp only [splitAssignFrom, List.mem_append] at hq
      rcases hq with h | h
      · exact calcAssign_bounds (tagTiers n j ts)
          (tagTiers_amount n j ts (hc (n, ts) (by simp))) d q h
      · exact ih ds2 (j + 1) (fun p hp => hc p (by simp [hp])) q h

theorem splitAssignFrom_sum_le : ∀ (banks : List (String × List Tier))
    (ds : List ℚ) (j : ℕ), (∀ d ∈ ds, 0 ≤ d) →
    amtSum (splitAssignFrom j banks ds) ≤ ds.sum := by
  intro banks
  induction banks with
  | nil =>
    intro ds j hd
    simp only [splitAssignFrom, amtSum, List.map_nil, List.sum_nil]
    exact List.sum_nonneg hd
  | cons b rest ih =>
    intro ds j hd
    obtain ⟨n, ts⟩ := b
    cases ds with
    | nil => simp [splitAssignFrom, amtSum]
    | cons d ds2 =>
      simp only [splitAssignFrom, List.sum_cons]
      have h1 : amtSum (calcAssign d (tagTiers n j ts) ++
          splitAssignFrom (j + 1) rest ds2) =
          amtSum (calcAssign d (tagTiers n j ts)) +
          amtSum (splitAssignFrom (j + 1) rest ds2) := by
        simp [amtSum]
      rw [h1]
      have h2 := calcAssign_sum_le (tagTiers n j ts) d (hd d (by simp))
      have h3 := ih ds2 (j + 1) (fun x hx => hd x (by simp [hx]))
      linarith

theorem exists_perm_map {α β : Type} [DecidableEq β] :
    ∀ (l2 : List α) (la : List β) (f : β → α), (la.map f).Perm l2 →
    ∃ la2 : List β, List.Perm la2 la ∧ List.map f la2 = l2 := by
  intro l2
  induction l2 with
  | nil =>
    intro la f h
    have h1 : la.map f = [] := h.eq_nil
    have h2 : la = [] := List.map_eq_nil.mp h1
    exact ⟨[], by rw [h2], rfl⟩
  | cons x l2t ih =>
    intro la f h
    have hx : x ∈ la.map f := h.symm.mem_iff.mp (by simp)
    obtain ⟨b, hb, hbf⟩ := List.mem_map.mp hx
    have hperm : la.Perm (b :: la.erase b) := List.perm_cons_erase hb
    have hmap : (la.map f).Perm (f b :: (la.erase b).map f) := by
      simpa using hperm.map f
    have h2 : ((la.erase b).map f).Perm l2t := by
      have := (hmap.symm.trans h)
      rw [hbf] at this
      exact this.cons_inv
    obtain ⟨la2t, hla2t, hla2tm⟩ := ih (la.erase b) f h2
    refine ⟨b :: la2t, ?_, ?_⟩
    · exact (hla2t.cons b).trans hperm.symm
    · simp [hla2tm, hbf]

theorem perm_assignValue {la la2 : List (FlatTier × ℚ)} (h : la2.Perm la) :
    assignValue la2 = assignValue la := by
  simp only [assignValue]
  exact (h.map (fun p => p.1.rate * p.2)).sum_eq

theorem perm_amtSum {la la2 : List (FlatTier × ℚ)} (h : la2.Perm la) :
    amtSum la2 = amtSum la := by
  simp only [amtSum]
  exact (h.map (fun p => p.2)).sum_eq

theorem sum_filter_partition (f : FlatTier × ℚ → ℚ) (n : ℕ) :
    ∀ l : List (FlatTier × ℚ), (∀ p ∈ l, p.1.bankIdx < n) →
    ∑ i ∈ Finset.range n,
      ((l.filter (fun p => p.1.bankIdx = i)).map f).sum = (l.map f).sum := by
  intro l
  induction l with
  | nil => intro _; simp
  | cons q rest ih =>
    intro h
    have hstep : ∀ i : ℕ,
        ((((q :: rest).filter (fun p => p.1.bankIdx = i)).map f).sum : ℚ) =
        (if q.1.bankIdx = i then f q else 0) +
          ((rest.filter (fun p => p.1.bankIdx = i)).map f).sum := by
      intro i
      by_cases hq : q.1.bankIdx = i
      · simp [List.filter_cons, hq]
      · simp [List.filter_cons, hq]
    calc ∑ i ∈ Finset.range n,
        (((q :: rest).filter (fun p => p.1.bankIdx = i)).map f).sum
        = ∑ i ∈ Finset.range n, ((if q.1.bankIdx = i then f q else 0) +
            ((rest.filter (fun p => p.1.bankIdx = i)).map f).sum) := by
          exact Finset.sum_congr rfl (fun i _ => hstep i)
      _ = (∑ i ∈ Finset.range n, if q.1.bankIdx = i then f q else 0) +
            ∑ i ∈ Finset.range n,
              ((rest.filter (fun p => p.1.bankIdx = i)).map f).sum := by
          rw [Finset.sum_add_distrib]
      _ = f q + (rest.map f).sum := by
          rw [ih (fun p hp => h p (by simp [hp]))]
          congr 1
          rw [Finset.sum_ite_eq]
          simp [h q (by simp)]
      _ = ((q :: rest).map f).sum := by simp

theorem filter_map_fst (i : ℕ) : ∀ la : List (FlatTier × ℚ),
    (la.filter (fun p => p.1.bankIdx = i)).map Prod.fst =
      (la.map Prod.fst).filter (fun ft => ft.bankIdx = i) := by
  intro la
  induction la with
  | nil => rfl
  | cons q rest ih =>
    by_cases hq : q.1.bankIdx = i
    · simp [List.filter_cons, hq, ih]
    · simp [List.filter_cons, hq, ih]

theorem range_map_sum (g : ℕ → ℚ) : ∀ n : ℕ,
    ((List.range n).map g).sum = ∑ i ∈ Finset.range n, g i := by
  intro n
  induction n with
  | zero => simp
  | succ m ih =>
    rw [List.range_succ, List.map_append, List.sum_append,
      Finset.sum_range_succ, ih]
    simp

theorem calcLoop_of_fill : ∀ (w : List (FlatTier × ℚ)),
    (∀ p ∈ w, 0 < p.1.amount) →
    (∀ p ∈ w, 0 ≤ p.2 ∧ p.2 ≤ p.1.amount) →
    w.Pairwise (fun p q => p.2 < p.1.amount → q.2 = 0) →
    (calcLoop (amtSum w) ((w.map Prod.fst).map untag)).1 = assignValue w := by
  intro w
  induction w with
  | nil => intro _ _ _; rfl
  | cons q rest ih =>
    intro hcap hb hpw
    obtain ⟨t, a⟩ := q
    have haq := hb (t, a) (by simp)
    simp only at haq
    have hcapt : 0 < t.amount := hcap (t, a) (by simp)
    have hbrest : ∀ p ∈ rest, 0 ≤ p.2 ∧ p.2 ≤ p.1.amount :=
      fun p hp => hb p (by simp [hp])
    have hS : 0 ≤ amtSum rest := amtSum_nonneg rest (fun p hp => (hbrest p hp).1)
    rcases List.pairwise_cons.mp hpw with ⟨hhead, hrest⟩
    have hsum_cons : amtSum ((t, a) :: rest) = a + amtSum rest := by
      simp [amtSum]
    have hval_cons : assignValue ((t, a) :: rest) =
        t.rate * a + assignValue rest := by
      simp [assignValue]
    simp only [List.map_cons, untag, calcLoop]
    by_cases hd : amtSum ((t, a) :: rest) ≤ 0
    · rw [if_pos ?_]
      · rw [assignValue_eq_zero ((t, a) :: rest) ?_ hd]
        · intro p hp
          rcases List.mem_cons.mp hp with h | h
          · rw [h]; exact haq.1
          · exact (hbrest p h).1
      · rw [hsum_cons] at hd
        have : a = 0 ∧ amtSum rest ≤ 0 := by
          constructor <;> [linarith [haq.1]; linarith [haq.1]]
        calc min (amtSum ((t, a) :: rest)) t.amount ≤ amtSum ((t, a) :: rest) :=
              min_le_left _ _
          _ ≤ 0 := by rw [hsum_cons]; linarith [this.1, this.2]
    · push_neg at hd
      rcases eq_or_lt_of_le haq.2 with hfull | hpartial
      · -- the head tier is fully consumed
        have hmin : min (amtSum ((t, a) :: rest)) t.amount = t.amount := by
          apply min_eq_right
          rw [hsum_cons, ← hfull]
          linarith
        rw [if_neg (by rw [hmin]; linarith)]
        simp only [hmin]
        have hrem : amtSum ((t, a) :: rest) - t.amount = amtSum rest := by
          rw [hsum_cons, ← hfull]; ring
        rw [hrem, ih (fun p hp => hcap p (by simp [hp])) hbrest hrest,
          hval_cons, ← hfull]
        ring
      · -- the head tier is partially consumed: everything after is zero
        have hzero : ∀ p ∈ rest, p.2 = 0 := fun p hp => hhead p hp hpartial
        have hS0 : amtSum rest = 0 := by
          apply List.sum_eq_zero
          intro x hx
          obtain ⟨p, hp, hpx⟩ := List.mem_map.mp hx
          rw [← hpx, hzero p hp]
        have hsa : amtSum ((t, a) :: rest) = a := by rw [hsum_cons, hS0]; ring
        have ha0 : 0 < a := by rw [hsa] at hd; exact hd
        have hmin : min (amtSum ((t, a) :: rest)) t.amount = a := by
          rw [hsa]
          exact min_eq_left hpartial.le
        rw [if_neg (by rw [hmin]; linarith)]
        simp only [hmin]
        have hrem : amtSum ((t, a) :: rest) - a = 0 := by rw [hsa]; ring
        rw [hrem, calcLoop_nonpos _ 0 le_rfl]
        have hvrest : assignValue rest = 0 :=
          assignValue_eq_zero rest (fun p hp => (hbrest p hp).1) (le_of_eq hS0)
        rw [hval_cons, hvrest]
        ring

theorem calc_of_fill (w : List (FlatTier × ℚ))
    (hcap : ∀ p ∈ w, 0 < p.1.amount)
    (hb : ∀ p ∈ w, 0 ≤ p.2 ∧ p.2 ≤ p.1.amount)
    (hpw : w.Pairwise (fun p q => p.2 < p.1.amount → q.2 = 0)) :
    (calculate_bank_interest (amtSum w)
      ((w.map Prod.fst).map untag)).total_interest = assignValue w := by
  unfold calculate_bank_interest
  split
  · rename_i h
    exact (assignValue_eq_zero w (fun p hp => (hb p hp).1) h).symm
  · exact calcLoop_of_fill w hcap hb hpw

theorem splitValue_range_map : ∀ (banks : List (String × List Tier))
    (g : ℕ → ℚ),
    splitValue banks ((List.range banks.length).map g) =
      ∑ i ∈ Finset.range banks.length,
        (calculate_bank_interest (g i) (tiersAt banks i)).total_interest := by
  intro banks
  induction banks with
  | nil => intro g; simp [splitValue]
  | cons b rest ih =>
    intro g
    rw [List.length_cons, List.range_succ_eq_map, List.map_cons,
      List.map_map]
    simp only [splitValue, List.zipWith_cons_cons, List.sum_cons]
    have ih2 := ih (g ∘ Nat.succ)
    simp only [splitValue] at ih2
    rw [ih2, Finset.sum_range_succ']
    have h0 : tiersAt (b :: rest) 0 = b.2 := by simp [tiersAt]
    have hsucc : ∀ i, tiersAt (b :: rest) (i + 1) = tiersAt rest i := by
      intro i; simp [tiersAt]
    simp only [h0, hsucc, Function.comp]
    ring

theorem sumAmounts_nonneg (tiers : List Tier)
    (h : ∀ t ∈ tiers, 0 ≤ t.amount) : 0 ≤ sumAmounts tiers := by
  apply List.sum_nonneg
  intro x hx
  obtain ⟨t, ht, hte⟩ := List.mem_map.mp hx
  rw [← hte]
  exact h t ht

theorem calcLoop_saturated : ∀ (L : List Tier), (∀ t ∈ L, 0 < t.amount) →
    ∀ rem : ℚ, sumAmounts L ≤ rem →
    (calcLoop rem L).1 = (L.map (fun t => t.rate * t.amount)).sum := by
  intro L
  induction L with
  | nil => intro _ rem _; rfl
  | cons t ts ih =>
    intro hcap rem hrem
    have hts : 0 ≤ sumAmounts ts :=
      sumAmounts_nonneg ts (fun u hu => (hcap u (by simp [hu])).le)
    have hsum : sumAmounts (t :: ts) = t.amount + sumAmounts ts := by
      simp [sumAmounts]
    rw [hsum] at hrem
    have hta : t.amount ≤ rem := by linarith
    have hmin : min rem t.amount = t.amount := min_eq_right hta
    simp only [calcLoop, hmin]
    rw [if_neg (by push_neg; exact hcap t (by simp))]
    simp only [List.map_cons, List.sum_cons]
    rw [ih (fun u hu => hcap u (by simp [hu])) (rem - t.amount) (by linarith)]
    ring

theorem calc_saturated (tiers : List Tier)
    (hcap : ∀ t ∈ tiers, 0 < t.amount) (d : ℚ)
    (h : sumAmounts tiers ≤ d) :
    (calculate_bank_interest d tiers).total_interest =
      (tiers.map (fun t => t.rate * t.amount)).sum := by
  unfold calculate_bank_interest
  split
  · rename_i hd
    cases tiers with
    | nil => rfl
    | cons t ts =>
      exfalso
      have h1 : 0 < t.amount := hcap t (by simp)
      have h2 : 0 ≤ sumAmounts ts :=
        sumAmounts_nonneg ts (fun u hu => (hcap u (by simp [hu])).le)
      have h3 : sumAmounts (t :: ts) = t.amount + sumAmounts ts := by
        simp [sumAmounts]
      linarith [h3 ▸ h]
  · exact calcLoop_saturated tiers hcap d h

theorem mem_sortDesc_flatten (banks : List (String × List Tier))
    (ft : FlatTier) (h : ft ∈ sortDesc (flattenBanks banks)) :
    ∃ p ∈ banks, ∃ t ∈ p.2, ft.rate = t.rate ∧ ft.amount = t.amount :=
  mem_flattenFrom_tier banks 0 ft
    ((sortDesc_perm (flattenBanks banks)).subset h)

theorem split_le_greedy (banks : List (String × List Tier)) (T : ℚ)
    (hT : 0 ≤ T)
    (hrate : ∀ p ∈ banks, ∀ t ∈ p.2, 0 ≤ t.rate)
    (hcap0 : ∀ p ∈ banks, ∀ t ∈ p.2, 0 ≤ t.amount)
    (ds : List ℚ) (hfeas : SplitFeasible banks T ds) :
    splitValue banks ds ≤ foldTotal (sortDesc (flattenBanks banks)) T := by
  obtain ⟨hlen, hnn, hsum⟩ := hfeas
  have hfst : (splitAssignFrom 0 banks ds).map Prod.fst = flattenBanks banks :=
    splitAssignFrom_fst banks ds 0 hlen
  have hperm : ((splitAssignFrom 0 banks ds).map Prod.fst).Perm
      (sortDesc (flattenBanks banks)) := by
    rw [hfst]
    exact (sortDesc_perm _).symm
  obtain ⟨la2, hla2p, hla2m⟩ := exists_perm_map (sortDesc (flattenBanks banks))
    (splitAssignFrom 0 banks ds) Prod.fst hperm
  have hbla : ∀ q ∈ splitAssignFrom 0 banks ds,
      0 ≤ q.2 ∧ q.2 ≤ q.1.amount :=
    splitAssignFrom_bounds banks ds 0 hcap0
  have hbla2 : ∀ q ∈ la2, 0 ≤ q.1.rate ∧ 0 ≤ q.1.amount ∧ 0 ≤ q.2 ∧
      q.2 ≤ q.1.amount := by
    intro q hq
    have hqla : q ∈ splitAssignFrom 0 banks ds := hla2p.subset hq
    have hq1 : q.1 ∈ sortDesc (flattenBanks banks) := by
      rw [← hla2m]
      exact List.mem_map_of_mem Prod.fst hq
    obtain ⟨p, hp, t, ht, hre, ham⟩ := mem_sortDesc_flatten banks q.1 hq1
    exact ⟨hre ▸ hrate p hp t ht, ham ▸ hcap0 p hp t ht,
      (hbla q hqla).1, (hbla q hqla).2⟩
  have hsorted2 : (la2.map Prod.fst).Pairwise
      (fun a b => b.rate ≤ a.rate) := by
    rw [hla2m]
    exact sortDesc_sorted _
  have hsum2 : amtSum la2 ≤ T := by
    rw [perm_amtSum hla2p]
    calc amtSum (splitAssignFrom 0 banks ds) ≤ ds.sum :=
          splitAssignFrom_sum_le banks ds 0 hnn
      _ = T := hsum
  have hkb := knapsack_bound la2 T hT hsorted2 hbla2 hsum2
  rw [hla2m, perm_assignValue hla2p, splitAssignFrom_value banks ds 0] at hkb
  exact hkb

theorem walk_bank_value (banks : List (String × List Tier)) (T : ℚ)
    (hcap : ∀ p ∈ banks, ∀ t ∈ p.2, 0 < t.amount)
    (hsorted : ∀ p ∈ banks, p.2.Pairwise (fun a b => b.rate ≤ a.rate))
    (i : ℕ) (hi : i < banks.length) :
    (calculate_bank_interest
        (amtSum ((walkAssign (sortDesc (flattenBanks banks)) T).filter
          (fun p => p.1.bankIdx = i)))
        (tiersAt banks i)).total_interest =
      assignValue ((walkAssign (sortDesc (flattenBanks banks)) T).filter
        (fun p => p.1.bankIdx = i)) := by
  obtain ⟨b, hgi⟩ : ∃ b, banks.get? i = some b := by
    cases hgi : banks.get? i with
    | none => exact absurd (List.get?_eq_none.mp hgi) (not_le.mpr hi)
    | some b => exact ⟨b, rfl⟩
  obtain ⟨ni, tsi⟩ := b
  have hmem : (ni, tsi) ∈ banks := List.get?_mem hgi
  have htsi : tiersAt banks i = tsi := by
    simp only [tiersAt, hgi]
    rfl
  have hfiltflat : (flattenBanks banks).filter (fun ft => ft.bankIdx = i) =
      tagTiers ni i tsi := by
    have h := flattenFrom_filter banks 0 i
    simp only [Nat.zero_add] at h
    rw [flattenBanks, h, htsi, hgi]
    rfl
  have hpairtag : (tagTiers ni i tsi).Pairwise
      (fun a b => b.rate ≤ a.rate) := by
    apply List.pairwise_map.mpr
    exact hsorted (ni, tsi) hmem
  have hLfilter : (sortDesc (flattenBanks banks)).filter
      (fun ft => ft.bankIdx = i) = tagTiers ni i tsi := by
    rw [filter_sortDesc _ _ (by rw [hfiltflat]; exact hpairtag)]
    exact hfiltflat
  have hwfst : ((walkAssign (sortDesc (flattenBanks banks)) T).filter
      (fun p => p.1.bankIdx = i)).map Prod.fst = tagTiers ni i tsi := by
    rw [filter_map_fst, walkAssign_fst, hLfilter]
  have hcapL : ∀ ft ∈ sortDesc (flattenBanks banks), 0 ≤ ft.amount := by
    intro ft hft
    obtain ⟨p, hp, t, ht, _, ham⟩ := mem_sortDesc_flatten banks ft hft
    exact ham ▸ (hcap p hp t ht).le
  have hcapw : ∀ q ∈ (walkAssign (sortDesc (flattenBanks banks)) T).filter
      (fun p => p.1.bankIdx = i), 0 < q.1.amount := by
    intro q hq
    have hq1 : q.1 ∈ tagTiers ni i tsi := by
      rw [← hwfst]
      exact List.mem_map_of_mem Prod.fst hq
    obtain ⟨t, ht, hte⟩ := List.mem_map.mp hq1
    rw [← hte]
    exact hcap (ni, tsi) hmem t ht
  have hbw : ∀ q ∈ (walkAssign (sortDesc (flattenBanks banks)) T).filter
      (fun p => p.1.bankIdx = i), 0 ≤ q.2 ∧ q.2 ≤ q.1.amount := by
    intro q hq
    have hqla : q ∈ walkAssign (sortDesc (flattenBanks banks)) T :=
      List.mem_of_mem_filter hq
    exact ⟨walkAssign_amt_nonneg _ hcapL T q hqla,
      walkAssign_amt_le _ hcapL T q hqla⟩
  have hpw : ((walkAssign (sortDesc (flattenBanks banks)) T).filter
      (fun p => p.1.bankIdx = i)).Pairwise
      (fun p q => p.2 < p.1.amount → q.2 = 0) :=
    List.Pairwise.sublist (List.filter_sublist _)
      (walkAssign_halt (sortDesc (flattenBanks banks)) T)
  have hmain := calc_of_fill _ hcapw hbw hpw
  rw [hwfst, untag_tagTiers, ← htsi] at hmain
  exact hmain

theorem walkParts_fst (banks : List (String × List Tier)) (T : ℚ)
    (hsorted : ∀ p ∈ banks, p.2.Pairwise (fun a b => b.rate ≤ a.rate))
    (i : ℕ) :
    ∃ nm, (walkParts banks T i).map Prod.fst =
      tagTiers nm i (tiersAt banks i) := by
  refine ⟨((banks.get? i).map Prod.fst).getD "", ?_⟩
  have h := flattenFrom_filter banks 0 i
  simp only [Nat.zero_add] at h
  have hpairtag : ((flattenBanks banks).filter
      (fun ft => ft.bankIdx = i)).Pairwise (fun a b => b.rate ≤ a.rate) := by
    rw [flattenBanks] at *
    rw [h]
    apply List.pairwise_map.mpr
    cases hgi : banks.get? i with
    | none =>
      have hgi2 : banks[i]? = none := by
        rw [← List.get?_eq_getElem?]; exact hgi
      simp [tiersAt, hgi, hgi2]
    | some b =>
      have : tiersAt banks i = b.2 := by simp only [tiersAt, hgi]; rfl
      rw [this]
      exact hsorted b (List.get?_mem hgi)
  rw [walkParts, filter_map_fst, walkAssign_fst, filter_sortDesc _ _ hpairtag]
  exact h

theorem greedy_split_exists (banks : List (String × List Tier)) (T : ℚ)
    (hne : banks ≠ []) (hT : 0 < T)
    (hcap : ∀ p ∈ banks, ∀ t ∈ p.2, 0 < t.amount)
    (hsorted : ∀ p ∈ banks, p.2.Pairwise (fun a b => b.rate ≤ a.rate)) :
    ∃ ds, SplitFeasible banks T ds ∧
      splitValue banks ds = foldTotal (sortDesc (flattenBanks banks)) T := by
  have hcapL : ∀ ft ∈ sortDesc (flattenBanks banks), 0 ≤ ft.amount := by
    intro ft hft
    obtain ⟨p, hp, t, ht, _, ham⟩ := mem_sortDesc_flatten banks ft hft
    exact ham ▸ (hcap p hp t ht).le
  have hidx : ∀ p ∈ walkAssign (sortDesc (flattenBanks banks)) T,
      p.1.bankIdx < banks.length := by
    intro p hp
    have h1 : p.1 ∈ sortDesc (flattenBanks banks) := by
      rw [← walkAssign_fst (sortDesc (flattenBanks banks)) T]
      exact List.mem_map_of_mem Prod.fst hp
    have h2 : p.1 ∈ flattenBanks banks := (sortDesc_perm _).subset h1
    have h3 := (flattenFrom_idx banks 0 p.1 h2).2
    simpa using h3
  have hDnn : ∀ i, 0 ≤ walkD banks T i := by
    intro i
    apply amtSum_nonneg
    intro q hq
    exact walkAssign_amt_nonneg _ hcapL T q (List.mem_of_mem_filter hq)
  have hval : ∑ i ∈ Finset.range banks.length,
      assignValue (walkParts banks T i) =
      foldTotal (sortDesc (flattenBanks banks)) T := by
    rw [foldTotal_eq_value]
    exact sum_filter_partition (fun p => p.1.rate * p.2) banks.length
      (walkAssign (sortDesc (flattenBanks banks)) T) hidx
  have hamt : ∑ i ∈ Finset.range banks.length, walkD banks T i =
      amtSum (walkAssign (sortDesc (flattenBanks banks)) T) :=
    sum_filter_partition (fun p => p.2) banks.length
      (walkAssign (sortDesc (flattenBanks banks)) T) hidx
  have hCle : amtSum (walkAssign (sortDesc (flattenBanks banks)) T) ≤ T :=
    walkAssign_sum_le _ T hT.le
  have hper : ∀ i, i < banks.length →
      assignValue (walkParts banks T i) =
        (calculate_bank_interest (walkD banks T i)
          (tiersAt banks i)).total_interest :=
    fun i hi => (walk_bank_value banks T hcap hsorted i hi).symm
  have hhead : (calculate_bank_interest
      (walkD banks T 0 + (T - amtSum (walkAssign (sortDesc (flattenBanks banks)) T)))
      (tiersAt banks 0)).total_interest =
      (calculate_bank_interest (walkD banks T 0)
        (tiersAt banks 0)).total_interest := by
    rcases eq_or_lt_of_le hCle with hEq | hLt
    · rw [hEq]
      norm_num
    · have hfull := walkAssign_full (sortDesc (flattenBanks banks)) T hT.le hLt
      obtain ⟨nm0, hfst0⟩ := walkParts_fst banks T hsorted 0
      have hcapts0 : ∀ t ∈ tiersAt banks 0, 0 < t.amount := by
        intro t ht
        cases hgi : banks.get? 0 with
        | none =>
          rw [tiersAt, hgi] at ht
          simp at ht
        | some b =>
          have he : tiersAt banks 0 = b.2 := by simp only [tiersAt, hgi]; rfl
          rw [he] at ht
          exact hcap b (List.get?_mem hgi) t ht
      have hD0 : walkD banks T 0 = sumAmounts (tiersAt banks 0) := by
        have h1 : (walkParts banks T 0).map (fun q => q.2) =
            (walkParts banks T 0).map (fun q => q.1.amount) := by
          apply List.map_congr_left
          intro q hq
          exact hfull q (List.mem_of_mem_filter hq)
        have h2 : ((walkParts banks T 0).map (fun q => q.1.amount)).sum =
            sumAmounts (tiersAt banks 0) := by
          have h3 : (walkParts banks T 0).map (fun q => q.1.amount) =
              ((walkParts banks T 0).map Prod.fst).map
                (fun ft => ft.amount) := by
            rw [List.map_map]
            rfl
          rw [h3, hfst0, tagTiers, List.map_map, sumAmounts]
          rfl
        rw [walkD, amtSum, h1, h2]
      rw [calc_saturated (tiersAt banks 0) hcapts0
          (walkD banks T 0 +
            (T - amtSum (walkAssign (sortDesc (flattenBanks banks)) T)))
          (by rw [← hD0]; linarith),
        calc_saturated (tiersAt banks 0) hcapts0 (walkD banks T 0)
          (by rw [← hD0])]
  obtain ⟨b0, brest, hbanks⟩ : ∃ b0 brest, banks = b0 :: brest := by
    cases banks with
    | nil => exact absurd rfl hne
    | cons b0 brest => exact ⟨b0, brest, rfl⟩
  refine ⟨addHead (T - amtSum (walkAssign (sortDesc (flattenBanks banks)) T))
    ((List.range banks.length).map (walkD banks T)), ?_, ?_⟩
  · refine ⟨?_, ?_, ?_⟩
    · subst hbanks
      simp [addHead, List.range_succ_eq_map]
    · intro d hd
      subst hbanks
      rw [List.length_cons, List.range_succ_eq_map, List.map_cons,
        addHead] at hd
      rcases List.mem_cons.mp hd with h | h
      · rw [h]
        have := hDnn 0
        linarith
      · obtain ⟨i, _, hie⟩ := List.mem_map.mp h
        rw [← hie]
        exact hDnn _
    · have hsum0 : ((List.range banks.length).map (walkD banks T)).sum =
          amtSum (walkAssign (sortDesc (flattenBanks banks)) T) := by
        rw [range_map_sum, hamt]
      subst hbanks
      rw [List.length_cons, List.range_succ_eq_map, List.map_cons, addHead,
        List.sum_cons]
      rw [List.length_cons, List.range_succ_eq_map, List.map_cons,
        List.sum_cons] at hsum0
      linarith
  · rw [← hval]
    have hdecomp : addHead
        (T - amtSum (walkAssign (sortDesc (flattenBanks banks)) T))
        ((List.range banks.length).map (walkD banks T)) =
        (walkD banks T 0 +
          (T - amtSum (walkAssign (sortDesc (flattenBanks banks)) T))) ::
        (List.range brest.length).map (walkD banks T ∘ Nat.succ) := by
      subst hbanks
      rw [List.length_cons, List.range_succ_eq_map, List.map_cons,
        List.map_map, addHead]
    rw [hdecomp]
    have hsv : splitValue banks ((walkD banks T 0 +
        (T - amtSum (walkAssign (sortDesc (flattenBanks banks)) T))) ::
        (List.range brest.length).map (walkD banks T ∘ Nat.succ)) =
        (calculate_bank_interest (walkD banks T 0 +
          (T - amtSum (walkAssign (sortDesc (flattenBanks banks)) T)))
          b0.2).total_interest +
        splitValue brest
          ((List.range brest.length).map (walkD banks T ∘ Nat.succ)) := by
      subst hbanks
      simp [splitValue]
    rw [hsv, splitValue_range_map brest (walkD banks T ∘ Nat.succ)]
    have ht0 : tiersAt banks 0 = b0.2 := by
      subst hbanks; simp [tiersAt]
    have htsucc : ∀ i, tiersAt brest i = tiersAt banks (i + 1) := by
      intro i
      subst hbanks
      simp [tiersAt]
    have hsum_rhs : ∑ i ∈ Finset.range banks.length,
        assignValue (walkParts banks T i) =
        (∑ i ∈ Finset.range brest.length,
          (calculate_bank_interest (walkD banks T (i + 1))
            (tiersAt banks (i + 1))).total_interest) +
        (calculate_bank_interest (walkD banks T 0)
          (tiersAt banks 0)).total_interest := by
      have hlen : banks.length = brest.length + 1 := by
        subst hbanks; simp
      rw [hlen, Finset.sum_range_succ']
      congr 1
      · apply Finset.sum_congr rfl
        intro i hi
        have him := Finset.mem_range.mp hi
        rw [hper (i + 1) (by rw [hlen]; omega)]
      · rw [hper 0 (by rw [hlen]; omega)]
    rw [hsum_rhs, ← ht0, hhead]
    have : ∀ i ∈ Finset.range brest.length,
        (calculate_bank_interest ((walkD banks T ∘ Nat.succ) i)
          (tiersAt brest i)).total_interest =
        (calculate_bank_interest (walkD banks T (i + 1))
          (tiersAt banks (i + 1))).total_interest := by
      intro i _
      rw [htsucc i]
      rfl
    rw [Finset.sum_congr rfl this]
    ring

/-- C2 (amended): for a nonzero total investment and accounts whose tier
lists have non-negative, within-account non-increasing rates and strictly
positive capacities, the greedy fallback `simple_allocation` returns a
result whose `total_annual_interest` is the true maximum achievable by any
split of the investment across the accounts, each account's deposit being
evaluated with the marginal-bracket semantics of
`calculate_bank_interest`: every feasible split is bounded by it, and some
feasible split attains it. -/
theorem greedy_is_optimal (banks : List (String × List Tier)) (T : ℚ)
    (hne : banks ≠ []) (hT : 0 < T)
    (hrate : ∀ p ∈ banks, ∀ t ∈ p.2, 0 ≤ t.rate)
    (hcap : ∀ p ∈ banks, ∀ t ∈ p.2, 0 < t.amount)
    (hsorted : ∀ p ∈ banks, p.2.Pairwise (fun a b => b.rate ≤ a.rate)) :
    ∃ res, simple_allocation banks T = .ok res ∧
      (∀ ds, SplitFeasible banks T ds →
        splitValue banks ds ≤ res.total_annual_interest) ∧
      (∃ ds, SplitFeasible banks T ds ∧
        splitValue banks ds = res.total_annual_interest) := by
  obtain ⟨res, hres, htot⟩ := simple_allocation_total banks T (ne_of_gt hT)
  refine ⟨res, hres, ?_, ?_⟩
  · intro ds hfeas
    rw [htot]
    exact split_le_greedy banks T hT.le hrate
      (fun p hp t ht => (hcap p hp t ht).le) ds hfeas
  · obtain ⟨ds, hfeas, hval⟩ := greedy_split_exists banks T hne hT hcap hsorted
    exact ⟨ds, hfeas, by rw [htot, hval]⟩

/-- C2 (counterexample): one account with the ascending tier schedule
`[(rate 0, cap 100), (rate 1, cap 100)]` (rates and capacities are
non-negative) and `totalInvestment = 100`.  The greedy fallback flattens and
sorts by rate, consumes the high-rate tier first, and reports
`total_annual_interest = 100`; but the only split gives the whole 100 to
the account, and `calculate_bank_interest` fills the FIRST bracket (rate 0)
first, so every feasible split truly earns `0`.  The greedy total is not
the true maximum. -/
theorem greedy_not_optimal_counterexample :
    simple_allocation [("A", [⟨0, 100⟩, ⟨1, 100⟩])] 100 =
      .ok ⟨[("A", ⟨100, 100, 25/3, [⟨100, 1, 100, 25/3⟩]⟩)], 100, 25/3, 100⟩ ∧
    (∀ ds, SplitFeasible [("A", [⟨0, 100⟩, ⟨1, 100⟩])] 100 ds →
      splitValue [("A", [⟨0, 100⟩, ⟨1, 100⟩])] ds = 0) ∧
    (100 : ℚ) ≠ 0 := by
  refine ⟨?_, ?_, by norm_num⟩
  · norm_num [simple_allocation, flattenBanks, flattenFrom, tagTiers,
      sortDesc, insertD, saWalk, updateAlloc, List.find?]
  · intro ds hfeas
    obtain ⟨hlen, hnn, hsum⟩ := hfeas
    simp only [List.length_cons, List.length_nil] at hlen
    match ds, hlen with
    | [d], _ =>
      simp only [List.sum_cons, List.sum_nil, add_zero] at hsum
      subst hsum
      norm_num [splitValue, calculate_bank_interest, calcLoop]

theorem greedy_is_optimal_witness :
    ([("A", [Tier.mk (1/20) 100]), ("B", [Tier.mk (1/100) 100])] ≠
      ([] : List (String × List Tier))) ∧
    (0 : ℚ) < 150 ∧
    (∃ res, simple_allocation
        [("A", [Tier.mk (1/20) 100]), ("B", [Tier.mk (1/100) 100])] 150 =
        .ok res ∧
      (∀ ds, SplitFeasible
          [("A", [Tier.mk (1/20) 100]), ("B", [Tier.mk (1/100) 100])] 150 ds →
        splitValue [("A", [Tier.mk (1/20) 100]), ("B", [Tier.mk (1/100) 100])]
          ds ≤ res.total_annual_interest) ∧
      (∃ ds, SplitFeasible
          [("A", [Tier.mk (1/20) 100]), ("B", [Tier.mk (1/100) 100])] 150 ds ∧
        splitValue [("A", [Tier.mk (1/20) 100]), ("B", [Tier.mk (1/100) 100])]
          ds = res.total_annual_interest)) :=
  ⟨by simp, by norm_num,
   greedy_is_optimal [("A", [Tier.mk (1/20) 100]), ("B", [Tier.mk (1/100) 100])]
     150 (by simp) (by norm_num)
     (by intro p hp t ht; simp at hp; rcases hp with h | h <;> subst h <;>
         simp at ht <;> rw [ht] <;> norm_num)
     (by intro p hp t ht; simp at hp; rcases hp with h | h <;> subst h <;>
         simp at ht <;> rw [ht] <;> norm_num)
     (by intro p hp; simp at hp; rcases hp with h | h <;> subst h <;> simp)⟩
